import Mathlib

/-!
A shallow embedding of `src/html_splitter.py` (the HTML message splitter of the
karachur-bot repository) and proofs of the specification's claims about it.

Strings are modelled as `List Char`.  Python `int` arithmetic is modelled with
`Int`.  Python exceptions (the `IndexError` raised by `clean.split()[0]` on a
tag whose interior has no word) are modelled with `Option`/an explicit `exn`
result.  The inner `while text:` loop of `split_html_message` is modelled with
explicit fuel, because it does not terminate on all inputs; `fuelOut` marks an
execution that exhausted its fuel.
-/

set_option maxHeartbeats 1000000

abbrev Str := List Char

/-- Python whitespace for `str.split()` (ASCII range). -/
def isPySpace (c : Char) : Bool :=
  c = ' ' || c = '\t' || c = '\n' || c = '\r' || c = '\x0b' || c = '\x0c'

/-- Python `s.strip(cutset)`: remove leading and trailing characters in `cutset`. -/
def pyStrip (cutset : List Char) (s : Str) : Str :=
  ((s.dropWhile (· ∈ cutset)).reverse.dropWhile (· ∈ cutset)).reverse

/-- Python `s.split()[0]`: first whitespace-separated word, `none` when the
string has no word (in which case the source raises `IndexError`). -/
def pyFirstWord (s : Str) : Option Str :=
  let t := s.dropWhile (isPySpace ·)
  if t.isEmpty then none else some (t.takeWhile (fun c => !isPySpace c))

/-- Python `str.lower()` restricted to ASCII letters (the alias table is ASCII). -/
def pyToLower (c : Char) : Char :=
  if 65 ≤ c.toNat ∧ c.toNat ≤ 90 then Char.ofNat (c.toNat + 32) else c

/-- Python `s.rfind(c)`: index of the last occurrence of `c`, `-1` if absent. -/
def pyRFind (c : Char) : Str → Int
  | [] => -1
  | a :: rest =>
    let r := pyRFind c rest
    if 0 ≤ r then r + 1 else if a = c then 0 else -1

/-- Python `s[:k]` (slice with a possibly negative bound). -/
def pySliceTo (s : Str) (k : Int) : Str :=
  if 0 ≤ k then s.take k.toNat else s.take (s.length - (-k).toNat)

/-- Python `s[k:]` (slice with a possibly negative bound). -/
def pySliceFrom (s : Str) (k : Int) : Str :=
  if 0 ≤ k then s.drop k.toNat else s.drop (s.length - (-k).toNat)

/-- `ALLOWED_TAGS` of `html_splitter.py`. -/
def ALLOWED_TAGS : List Str :=
  ["b".data, "i".data, "u".data, "s".data, "a".data, "code".data, "pre".data,
   "tg-spoiler".data]

/-- `TAG_NORMALIZATION.get` of `html_splitter.py`. -/
def tagNormalization (name : Str) : Option Str :=
  if name = "strong".data then some "b".data
  else if name = "em".data then some "i".data
  else if name = "ins".data then some "u".data
  else if name = "del".data then some "s".data
  else if name = "strike".data then some "s".data
  else none

/-- `VOID_TAGS` of `html_splitter.py`. -/
def VOID_TAGS : List Str := ["br".data]

/-- The character set stripped from tag tokens: `token.strip("<> ")`. -/
def stripSet : List Char := ['<', '>', ' ']

/-- `normalize_tag` of `html_splitter.py`; `none` models the `IndexError`
raised by `clean.split()[0]` when the stripped token contains no word. -/
def normalize_tag (token : Str) : Option Str :=
  let clean0 := pyStrip stripSet token
  let isClosing := clean0.head? = some '/'
  let clean := if isClosing then clean0.tail else clean0
  match pyFirstWord clean with
  | none => none
  | some w =>
    let tagName := w.map pyToLower
    match tagNormalization tagName with
    | some nn =>
      if isClosing then some ('<' :: '/' :: (nn ++ ['>']))
      else some ('<' :: (nn ++ clean.drop tagName.length ++ ['>']))
    | none => some token

/-- `extract_tag_info` of `html_splitter.py`: returns
`(tag_name, is_closing, is_void)`; `none` models the `IndexError`. -/
def extract_tag_info (token : Str) : Option (Str × Bool × Bool) :=
  let clean0 := pyStrip stripSet token
  let isClosing := clean0.head? = some '/'
  let clean := if isClosing then clean0.tail else clean0
  match pyFirstWord clean with
  | none => none
  | some w =>
    let tagName0 := w.map pyToLower
    let tagName := (tagNormalization tagName0).getD tagName0
    let isVoid := decide (tagName ∈ VOID_TAGS) || decide (clean.getLast? = some '/')
    some (tagName, isClosing, isVoid)

/-- Locate the first match of the regex `<[^>]+>` in `s`:
returns `(pre, tag, rest)` with `s = pre ++ tag ++ rest`, or `none`. -/
def findTag : Str → Option (Str × Str × Str)
  | [] => none
  | c :: rest =>
    if c = '<' then
      let a := rest.takeWhile (· ≠ '>')
      if a.isEmpty then (findTag rest).map (fun p => (c :: p.1, p.2.1, p.2.2))
      else
        let b := rest.drop a.length
        if b.head? = some '>' then some ([], c :: (a ++ ['>']), b.tail)
        else none
    else (findTag rest).map (fun p => (c :: p.1, p.2.1, p.2.2))

theorem findTag_rest_length : ∀ (s pre tag rest : Str),
    findTag s = some (pre, tag, rest) → rest.length < s.length := by
  intro s
  induction s with
  | nil => intro pre tag rest h; simp [findTag] at h
  | cons c cs ih =>
    intro pre tag rest h
    rw [findTag] at h
    by_cases hc : c = '<'
    · rw [if_pos hc] at h
      by_cases ha : (cs.takeWhile (· ≠ '>')).isEmpty
      · rw [if_pos ha, Option.map_eq_some'] at h
        obtain ⟨⟨p1, p2, p3⟩, hp, he⟩ := h
        have he3 : p3 = rest := by simpa using congrArg (·.2.2) he
        have := ih p1 p2 p3 hp
        rw [← he3]
        simp only [List.length_cons]; omega
      · rw [if_neg ha] at h
        by_cases hb : (cs.drop (cs.takeWhile (· ≠ '>')).length).head? = some '>'
        · rw [if_pos hb, Option.some.injEq] at h
          have h3 : (cs.drop (cs.takeWhile (· ≠ '>')).length).tail = rest := by
            simpa using congrArg (·.2.2) h
          have h1 : (cs.drop (cs.takeWhile (· ≠ '>')).length).length ≤ cs.length := by
            rw [List.length_drop]; omega
          have h2 : (cs.drop (cs.takeWhile (· ≠ '>')).length) ≠ [] := by
            intro he; rw [he] at hb; simp at hb
          have h4 : (cs.drop (cs.takeWhile (· ≠ '>')).length).tail.length
              < (cs.drop (cs.takeWhile (· ≠ '>')).length).length := by
            cases hh : cs.drop (cs.takeWhile (· ≠ '>')).length with
            | nil => exact absurd hh h2
            | cons x xs => simp
          rw [h3] at h4
          simp only [List.length_cons]; omega
        · rw [if_neg hb] at h; simp at h
    · rw [if_neg hc, Option.map_eq_some'] at h
      obtain ⟨⟨p1, p2, p3⟩, hp, he⟩ := h
      have he3 : p3 = rest := by simpa using congrArg (·.2.2) he
      have := ih p1 p2 p3 hp
      rw [← he3]
      simp only [List.length_cons]; omega

/-- Tokenizer worker, structurally recursive on a fuel bound; since `findTag`
strictly shrinks the remainder, `s.length + 1` fuel always suffices and the
zero-fuel base case is never reached. -/
def tokenizeAux : Nat → Str → List Str
  | 0, s => [s]
  | n + 1, s =>
    match findTag s with
    | none => [s]
    | some (pre, tag, rest) => pre :: tag :: tokenizeAux n rest

/-- Tokenize with the regex split `re.split(r"(<[^>]+>)", s)`, keeping the
captured tag tokens as list elements (as the grouping parentheses do). -/
def tokenize (s : Str) : List Str := tokenizeAux (s.length + 1) s

theorem tokenizeAux_stable : ∀ (n m : Nat) (s : Str),
    s.length < n → s.length < m → tokenizeAux n s = tokenizeAux m s := by
  intro n
  induction n with
  | zero => intro m s h1 h2; omega
  | succ n ih =>
    intro m s hn hm
    cases m with
    | zero => omega
    | succ m =>
      rw [tokenizeAux, tokenizeAux]
      cases hf : findTag s with
      | none => rfl
      | some p =>
        obtain ⟨pre, tag, rest⟩ := p
        have := findTag_rest_length s pre tag rest hf
        show pre :: tag :: tokenizeAux n rest = pre :: tag :: tokenizeAux m rest
        rw [ih m rest (by omega) (by omega)]

/-- The defining recursion of `tokenize`. -/
theorem tokenize_eq (s : Str) : tokenize s =
    match findTag s with
    | none => [s]
    | some (pre, tag, rest) => pre :: tag :: tokenize rest := by
  show tokenizeAux (s.length + 1) s = _
  rw [tokenizeAux]
  cases hf : findTag s with
  | none => rfl
  | some p =>
    obtain ⟨pre, tag, rest⟩ := p
    have := findTag_rest_length s pre tag rest hf
    show _ :: _ :: tokenizeAux s.length rest = _ :: _ :: tokenize rest
    rw [tokenizeAux_stable s.length (rest.length + 1) rest (by omega) (by omega)]
    rfl

theorem takeWhile_append_drop (p : Char → Bool) :
    ∀ l : Str, l.takeWhile p ++ l.drop (l.takeWhile p).length = l := by
  intro l
  induction l with
  | nil => rfl
  | cons a t ih =>
    by_cases h : p a
    · simp [List.takeWhile_cons, h, ih]
    · simp [List.takeWhile_cons, h]

theorem head?_eq_cons {b : Str} {c : Char} (h : b.head? = some c) :
    b = c :: b.tail := by
  cases b with
  | nil => simp at h
  | cons x xs => simp only [List.head?_cons, Option.some.injEq] at h; rw [h]; rfl

theorem findTag_decomp : ∀ (s pre tag rest : Str),
    findTag s = some (pre, tag, rest) → s = pre ++ tag ++ rest := by
  intro s
  induction s with
  | nil => intro pre tag rest h; simp [findTag] at h
  | cons c cs ih =>
    intro pre tag rest h
    rw [findTag] at h
    by_cases hc : c = '<'
    · rw [if_pos hc] at h
      by_cases ha : (cs.takeWhile (· ≠ '>')).isEmpty
      · rw [if_pos ha, Option.map_eq_some'] at h
        obtain ⟨⟨p1, p2, p3⟩, hp, he⟩ := h
        have h1 : pre = c :: p1 := by simpa using (congrArg (·.1) he).symm
        have h2 : tag = p2 := by simpa using (congrArg (·.2.1) he).symm
        have h3 : rest = p3 := by simpa using (congrArg (·.2.2) he).symm
        subst h1; subst h2; subst h3
        have := ih p1 tag rest hp
        simp only [List.cons_append, this]
      · rw [if_neg ha] at h
        by_cases hb : (cs.drop (cs.takeWhile (· ≠ '>')).length).head? = some '>'
        · rw [if_pos hb, Option.some.injEq] at h
          have h1 : pre = [] := by simpa using (congrArg (·.1) h).symm
          have h2 : tag = c :: (cs.takeWhile (· ≠ '>') ++ ['>']) := by
            simpa using (congrArg (·.2.1) h).symm
          have h3 : rest = (cs.drop (cs.takeWhile (· ≠ '>')).length).tail := by
            simpa using (congrArg (·.2.2) h).symm
          subst h1; subst h2; subst h3
          have hcs := takeWhile_append_drop (· ≠ '>') cs
          have hbc := head?_eq_cons hb
          simp only [List.nil_append, List.cons_append, List.cons.injEq,
            List.append_assoc, List.singleton_append, true_and]
          conv_lhs => rw [← hcs, hbc]
        · rw [if_neg hb] at h; simp at h
    · rw [if_neg hc, Option.map_eq_some'] at h
      obtain ⟨⟨p1, p2, p3⟩, hp, he⟩ := h
      have h1 : pre = c :: p1 := by simpa using (congrArg (·.1) he).symm
      have h2 : tag = p2 := by simpa using (congrArg (·.2.1) he).symm
      have h3 : rest = p3 := by simpa using (congrArg (·.2.2) he).symm
      subst h1; subst h2; subst h3
      have := ih p1 tag rest hp
      simp only [List.cons_append, this]

/-- The tokenization is a partition of the input: joining all tokens gives
back the input string. -/
theorem tokenize_flatten : ∀ s : Str, (tokenize s).flatten = s := by
  have H : ∀ (n : Nat) (s : Str), s.length = n → (tokenize s).flatten = s := by
    intro n
    induction n using Nat.strong_induction_on with
    | _ n ih =>
      intro s hs
      rw [tokenize_eq]
      cases h : findTag s with
      | none => simp
      | some p =>
        obtain ⟨pre, tag, rest⟩ := p
        have hlt := findTag_rest_length s pre tag rest h
        have hr := ih rest.length (by omega) rest rfl
        simp only [List.flatten_cons, hr]
        rw [← List.append_assoc]
        exact (findTag_decomp s pre tag rest h).symm
  exact fun s => H s.length s rfl

/-- The token loop of `normalize_html`: normalize every token that starts
with `<`, keep the rest; a raised exception propagates as `none`. -/
def normTokens : List Str → Option (List Str)
  | [] => some []
  | t :: ts =>
    match (if t.head? = some '<' then normalize_tag t else some t),
        normTokens ts with
    | some t2, some ts2 => some (t2 :: ts2)
    | _, _ => none

/-- `normalize_html` of `html_splitter.py`; `none` models a raised exception. -/
def normalize_html (html : Str) : Option Str :=
  (normTokens (tokenize html)).map List.flatten

/-- `get_closing_str` of `html_splitter.py`.  A stack entry is
`(tag_name, full opening tag text)`; the top of the stack is the list end. -/
def get_closing_str (stack : List (Str × Str)) : Str :=
  (stack.reverse.map fun e => '<' :: '/' :: (e.1 ++ ['>'])).flatten

/-- `get_opening_str` of `html_splitter.py`. -/
def get_opening_str (stack : List (Str × Str)) : Str :=
  (stack.map fun e => e.2).flatten

/-- Remove the first entry (from the head) whose name matches. -/
def removeFirst (name : Str) : List (Str × Str) → List (Str × Str)
  | [] => []
  | e :: rest => if e.1 = name then rest else e :: removeFirst name rest

/-- The closing-tag handling of `split_html_message`: pop the nearest
(most recent) entry whose name matches, a no-op when none does. -/
def popTag (stack : List (Str × Str)) (name : Str) : List (Str × Str) :=
  (removeFirst name stack.reverse).reverse

/-- `available_space` of the text loop:
`max_chars - len(current_chunk) - len(closing_markup)`. -/
def tlAvailable (maxChars : Int) (stack : List (Str × Str)) (cc : Str) : Int :=
  maxChars - cc.length - (get_closing_str stack).length

/-- `candidate = text[:available_space]` of the text loop. -/
def tlCandidate (maxChars : Int) (stack : List (Str × Str)) (cc text : Str) :
    Str :=
  pySliceTo text (tlAvailable maxChars stack cc)

/-- `split_idx` of the text loop: last newline in the candidate, else last
space, else `-1` (defer the whole word) when space is scarce and the chunk
already has content beyond the reopened skeleton, else a hard cut at
`available_space`; a found separator is kept in the emitted part (`+ 1`). -/
def tlSplitIdx (maxChars : Int) (stack : List (Str × Str)) (cc text : Str) :
    Int :=
  let candidate := tlCandidate maxChars stack cc text
  let si0 := pyRFind '\n' candidate
  let si1 := if si0 = -1 then pyRFind ' ' candidate else si0
  if si1 = -1 then
    if tlAvailable maxChars stack cc < 10 ∧
        ((get_opening_str stack).length : Int) < (cc.length : Int) then -1
    else tlAvailable maxChars stack cc
  else si1 + 1

/-- The chunk content accumulated by one non-fitting text-loop iteration:
`current_chunk + text[:split_idx]` when `split_idx > 0`, else unchanged. -/
def tlCC2 (maxChars : Int) (stack : List (Str × Str)) (cc text : Str) : Str :=
  if 0 < tlSplitIdx maxChars stack cc text
  then cc ++ pySliceTo text (tlSplitIdx maxChars stack cc text) else cc

/-- The remaining text after one non-fitting text-loop iteration:
`text[split_idx:]` when `split_idx > 0`, else unchanged. -/
def tlText2 (maxChars : Int) (stack : List (Str × Str)) (cc text : Str) : Str :=
  if 0 < tlSplitIdx maxChars stack cc text
  then pySliceFrom text (tlSplitIdx maxChars stack cc text) else text

/-- One execution of the `while text:` loop of `split_html_message`, with
`fuel` bounding the number of iterations (the loop does not always terminate).
Returns the updated `(chunks, current_chunk)`; the stack is not modified. -/
def textLoop (maxChars : Int) (stack : List (Str × Str)) :
    Nat → List Str → Str → Str → Option (List Str × Str)
  | 0, _, _, _ => none
  | fuel + 1, chunks, cc, text =>
    if text.isEmpty then some (chunks, cc)
    else if (text.length : Int) ≤ tlAvailable maxChars stack cc then
      some (chunks, cc ++ text)
    else
      textLoop maxChars stack fuel
        (chunks ++ [tlCC2 maxChars stack cc text ++ get_closing_str stack])
        (get_opening_str stack) (tlText2 maxChars stack cc text)

/-- The splitter's loop state: finalized chunks, current chunk, tag stack. -/
structure St where
  chunks : List Str
  cc : Str
  stack : List (Str × Str)
deriving DecidableEq, Repr

/-- Result of running (part of) `split_html_message`: a normal value, a raised
exception, or an execution that exhausted its fuel. -/
inductive Res (α : Type) where
  | ok (a : α)
  | exn
  | fuelOut
deriving DecidableEq, Repr

/-- The body of the `for token in tokens:` loop of `split_html_message`,
for one (non-empty) token. -/
def procStep (maxChars : Int) (fuel : Nat) (token : Str) (st : St) : Res St :=
  if token.head? = some '<' then
    match extract_tag_info token with
    | none => .exn
    | some (tagName, isClosing, isVoid) =>
      let closing := get_closing_str st.stack
      let over : Bool :=
        decide ((maxChars : Int) <
          (st.cc.length : Int) + (token.length : Int) + (closing.length : Int))
      let chunks := if over then st.chunks ++ [st.cc ++ closing] else st.chunks
      let cc0 := if over then get_opening_str st.stack else st.cc
      let cc := cc0 ++ token
      let stack :=
        if tagName ∈ ALLOWED_TAGS then
          if isClosing then popTag st.stack tagName
          else if !isVoid then st.stack ++ [(tagName, token)]
          else st.stack
        else st.stack
      .ok ⟨chunks, cc, stack⟩
  else
    match textLoop maxChars st.stack fuel st.chunks st.cc token with
    | none => .fuelOut
    | some (chunks, cc) => .ok ⟨chunks, cc, st.stack⟩

/-- The `for token in tokens:` loop of `split_html_message`. -/
def procTokens (maxChars : Int) (fuel : Nat) : List Str → St → Res St
  | [], st => .ok st
  | token :: rest, st =>
    if token.isEmpty then procTokens maxChars fuel rest st
    else
      match procStep maxChars fuel token st with
      | .ok st2 => procTokens maxChars fuel rest st2
      | .exn => .exn
      | .fuelOut => .fuelOut

/-- The body of `split_html_message` after the initial normalization step,
taking the already-normalized document. -/
def split_core (nh : Str) (maxChars : Int) (fuel : Nat) : Res (List Str) :=
  if (nh.length : Int) ≤ maxChars then .ok [nh]
  else
    match procTokens maxChars fuel (tokenize nh) ⟨[], [], []⟩ with
    | .exn => .exn
    | .fuelOut => .fuelOut
    | .ok st =>
      let chunks :=
        if st.cc.isEmpty then st.chunks
        else st.chunks ++ [st.cc ++ get_closing_str st.stack]
      .ok (chunks.filter fun c =>
        !(decide (c = []) || decide (c = get_opening_str [])))

/-- `split_html_message` of `html_splitter.py`. -/
def split_html_message (html : Str) (maxChars : Int) (fuel : Nat) :
    Res (List Str) :=
  match normalize_html html with
  | none => .exn
  | some nh => split_core nh maxChars fuel

theorem split_of_norm {html nh : Str} (hn : normalize_html html = some nh)
    (maxChars : Int) (fuel : Nat) :
    split_html_message html maxChars fuel = split_core nh maxChars fuel := by
  unfold split_html_message
  rw [hn]

theorem split_of_norm_exn {html : Str} (hn : normalize_html html = none)
    (maxChars : Int) (fuel : Nat) :
    split_html_message html maxChars fuel = .exn := by
  unfold split_html_message
  rw [hn]


theorem length_dropWhileLe (p : Char → Bool) (l : Str) :
    (l.dropWhile p).length ≤ l.length :=
  (List.dropWhile_sublist p).length_le

theorem length_takeWhileLe (p : Char → Bool) (l : Str) :
    (l.takeWhile p).length ≤ l.length :=
  (List.takeWhile_sublist p).length_le

/-- Stripping a token that starts with `<` strictly shrinks it. -/
theorem pyStrip_length_lt {token : Str} (h : token.head? = some '<') :
    (pyStrip stripSet token).length < token.length := by
  have ht := head?_eq_cons h
  have h1 : token.dropWhile (· ∈ stripSet) = token.tail.dropWhile (· ∈ stripSet) := by
    conv_lhs => rw [ht]
    simp [List.dropWhile_cons, stripSet]
  have h1l : (token.dropWhile (· ∈ stripSet)).length
      = (token.tail.dropWhile (· ∈ stripSet)).length := congrArg List.length h1
  have h2 : (pyStrip stripSet token).length ≤ (token.dropWhile (· ∈ stripSet)).length := by
    unfold pyStrip
    rw [List.length_reverse]
    calc ((token.dropWhile (· ∈ stripSet)).reverse.dropWhile (· ∈ stripSet)).length
        ≤ (token.dropWhile (· ∈ stripSet)).reverse.length := length_dropWhileLe _ _
      _ = (token.dropWhile (· ∈ stripSet)).length := List.length_reverse _
  have h3 : (token.tail.dropWhile (· ∈ stripSet)).length ≤ token.tail.length :=
    length_dropWhileLe _ _
  have h4 : token.tail.length < token.length := by
    conv_rhs => rw [ht]
    simp
  omega

theorem pyFirstWord_length_le {s w : Str} (h : pyFirstWord s = some w) :
    w.length ≤ s.length := by
  simp only [pyFirstWord] at h
  split at h
  · cases h
  · have h2 := Option.some.inj h
    rw [← h2]
    calc ((s.dropWhile (isPySpace ·)).takeWhile fun c => !isPySpace c).length
        ≤ (s.dropWhile (isPySpace ·)).length := length_takeWhileLe _ _
      _ ≤ s.length := length_dropWhileLe _ _

theorem tagNormalization_spec {n nn : Str} (h : tagNormalization n = some nn) :
    2 ≤ n.length ∧ nn.length = 1 := by
  unfold tagNormalization at h
  split_ifs at h with h1 h2 h3 h4 h5
  · injection h with h0; subst h0; subst h1; exact ⟨by decide, by decide⟩
  · injection h with h0; subst h0; subst h2; exact ⟨by decide, by decide⟩
  · injection h with h0; subst h0; subst h3; exact ⟨by decide, by decide⟩
  · injection h with h0; subst h0; subst h4; exact ⟨by decide, by decide⟩
  · injection h with h0; subst h0; subst h5; exact ⟨by decide, by decide⟩

/-- `normalize_tag` never lengthens a token that starts with `<`. -/
theorem normalize_tag_length {token out : Str} (hh : token.head? = some '<')
    (h : normalize_tag token = some out) : out.length ≤ token.length := by
  have hstrip := pyStrip_length_lt hh
  simp only [normalize_tag] at h
  split_ifs at h with hcl
  · split at h
    · cases h
    · next w hfw =>
      split at h
      · next nn htn =>
        have h0 := Option.some.inj h
        rw [← h0]
        obtain ⟨hn2, hnn1⟩ := tagNormalization_spec htn
        rw [List.length_map] at hn2
        have hwc : w.length ≤ (pyStrip stripSet token).tail.length :=
          pyFirstWord_length_le hfw
        have hct : (pyStrip stripSet token).length
            = (pyStrip stripSet token).tail.length + 1 := by
          conv_lhs => rw [head?_eq_cons hcl]
          simp
        simp only [List.length_cons, List.length_append, hnn1,
          List.length_singleton, List.length_nil]
        omega
      · have h0 := Option.some.inj h
        rw [← h0]
  · split at h
    · cases h
    · next w hfw =>
      split at h
      · next nn htn =>
        have h0 := Option.some.inj h
        rw [← h0]
        obtain ⟨hn2, hnn1⟩ := tagNormalization_spec htn
        rw [List.length_map] at hn2
        have hwc : w.length ≤ (pyStrip stripSet token).length :=
          pyFirstWord_length_le hfw
        have hdrop : ((pyStrip stripSet token).drop (w.map pyToLower).length).length
            = (pyStrip stripSet token).length - w.length := by
          rw [List.length_drop, List.length_map]
        simp only [List.length_cons, List.length_append, hnn1, hdrop,
          List.length_singleton, List.length_nil]
        omega
      · have h0 := Option.some.inj h
        rw [← h0]

/-- The token-normalization loop never lengthens the joined text. -/
theorem normTokens_length : ∀ {ts ts2 : List Str}, normTokens ts = some ts2 →
    ts2.flatten.length ≤ ts.flatten.length := by
  intro ts
  induction ts with
  | nil => intro ts2 h; injection h with h0; rw [← h0]
  | cons t ts ih =>
    intro ts2 h
    unfold normTokens at h
    by_cases hlt : t.head? = some '<'
    · rw [if_pos hlt] at h
      rcases hnt : normalize_tag t with _ | t2
      · rw [hnt] at h; cases h
      · rw [hnt] at h
        rcases hns : normTokens ts with _ | tss
        · rw [hns] at h; cases h
        · rw [hns] at h
          injection h with h0
          rw [← h0]
          have h1 := normalize_tag_length hlt hnt
          have h2 := ih hns
          simp only [List.flatten_cons, List.length_append]
          omega
    · rw [if_neg hlt] at h
      rcases hns : normTokens ts with _ | tss
      · rw [hns] at h; cases h
      · rw [hns] at h
        injection h with h0
        rw [← h0]
        have h2 := ih hns
        simp only [List.flatten_cons, List.length_append]
        omega

/-- Normalization never lengthens the document. -/
theorem normalize_html_length {html nh : Str}
    (h : normalize_html html = some nh) : nh.length ≤ html.length := by
  unfold normalize_html at h
  rcases ht : normTokens (tokenize html) with _ | ts2
  · rw [ht] at h; cases h
  · rw [ht] at h
    injection h with h0
    rw [← h0]
    have := normTokens_length ht
    rw [tokenize_flatten] at this
    exact this

/-- C10: an input whose normalized form fits within `max_chars` is returned as
the single chunk `[normalized input]`, bypassing tokenization, stack tracking
and the empty-chunk filter (so the chunk may be empty or have unbalanced
tags). -/
theorem C10_small_input_identity (html : Str) (maxChars : Int) (fuel : Nat)
    (nh : Str) (hn : normalize_html html = some nh)
    (hle : (nh.length : Int) ≤ maxChars) :
    split_html_message html maxChars fuel = .ok [nh] := by
  rw [split_of_norm hn, split_core, if_pos hle]

theorem C10_witness :
    normalize_html "</b>".data = some "</b>".data ∧
      ((("</b>".data : Str).length : Int) ≤ 4) ∧
      split_html_message "</b>".data 4 0 = .ok ["</b>".data] :=
  ⟨by decide, by decide,
    C10_small_input_identity "</b>".data 4 0 "</b>".data (by decide) (by decide)⟩

/-- C9 (amended): with `max_chars = len(s) + 1` the splitter returns the
one-element list containing the *normalized* input, which equals `[s]`
exactly when tag normalization leaves `s` unchanged. -/
theorem C9_identity_amended (s : Str) (fuel : Nat) (nh : Str)
    (hn : normalize_html s = some nh) :
    split_html_message s ((s.length : Int) + 1) fuel = .ok [nh] := by
  apply C10_small_input_identity s _ fuel nh hn
  have := normalize_html_length hn
  omega

theorem C9_identity_amended_witness :
    normalize_html "ab".data = some "ab".data ∧
      split_html_message "ab".data ((("ab".data : Str).length : Int) + 1) 0
        = .ok ["ab".data] :=
  ⟨by decide, C9_identity_amended "ab".data 0 "ab".data (by decide)⟩

/-- C9 is false as stated: for `s = "<em>"`, `split(s, len(s) + 1)` returns
`["<i>"]`, not `[s]`, because the input is tag-normalized before the
short-circuit length test. -/
theorem C9_counterexample :
    split_html_message "<em>".data ((("<em>".data : Str).length : Int) + 1) 0
        = .ok ["<i>".data] ∧ "<i>".data ≠ "<em>".data := by
  constructor
  · exact C9_identity_amended "<em>".data 0 "<i>".data (by decide)
  · decide

/-- C4 is false for the claim's own example: a tag token whose interior
consists only of spaces makes `clean.split()[0]` raise `IndexError` inside
`normalize_tag`, so `split_html_message("< >")` raises for every `max_chars`
instead of absorbing the malformed tag. -/
theorem C4_exception_on_blank_tag (maxChars : Int) (fuel : Nat) :
    split_html_message "< >".data maxChars fuel = .exn :=
  split_of_norm_exn (by decide) maxChars fuel

/-- The inner text loop makes no progress when the tag overhead already
exceeds `max_chars` and the current chunk equals the reopened skeleton: the
state repeats identically, so the loop never terminates (any fuel runs out). -/
theorem C3_loop_stuck : ∀ (fuel : Nat) (chunks : List Str),
    textLoop 3 [("pre".data, "<pre>".data)] fuel chunks "<pre>".data "abc".data
      = none := by
  intro fuel
  induction fuel with
  | zero => intro chunks; rfl
  | succ n ih =>
    intro chunks
    have hstep : textLoop 3 [("pre".data, "<pre>".data)] (n + 1) chunks
          "<pre>".data "abc".data
        = textLoop 3 [("pre".data, "<pre>".data)] n
            (chunks ++ ["<pre></pre>".data]) "<pre>".data "abc".data := rfl
    rw [hstep]
    exact ih (chunks ++ ["<pre></pre>".data])

theorem procStep_text (mc : Int) (fuel : Nat) (token : Str) (chunks : List Str)
    (cc : Str) (stack : List (Str × Str)) (h2 : ¬token.head? = some '<') :
    procStep mc fuel token ⟨chunks, cc, stack⟩
      = match textLoop mc stack fuel chunks cc token with
        | none => Res.fuelOut
        | some r => Res.ok ⟨r.1, r.2, stack⟩ := by
  unfold procStep
  rw [if_neg h2]
  cases textLoop mc stack fuel chunks cc token with
  | none => rfl
  | some r => obtain ⟨a, b⟩ := r; rfl

theorem procStep_tag (mc : Int) (fuel : Nat) (token : Str) (chunks : List Str)
    (cc : Str) (stack : List (Str × Str)) (h2 : token.head? = some '<') :
    procStep mc fuel token ⟨chunks, cc, stack⟩
      = match extract_tag_info token with
        | none => Res.exn
        | some (tagName, isClosing, isVoid) =>
          Res.ok
            ⟨if decide (mc < (cc.length : Int) + (token.length : Int)
                  + ((get_closing_str stack).length : Int))
              then chunks ++ [cc ++ get_closing_str stack] else chunks,
             (if decide (mc < (cc.length : Int) + (token.length : Int)
                  + ((get_closing_str stack).length : Int))
              then get_opening_str stack else cc) ++ token,
             if tagName ∈ ALLOWED_TAGS then
               if isClosing then popTag stack tagName
               else if !isVoid then stack ++ [(tagName, token)]
               else stack
             else stack⟩ := by
  unfold procStep
  rw [if_pos h2]

theorem procTokens_nil (mc : Int) (fuel : Nat) (st : St) :
    procTokens mc fuel [] st = .ok st := rfl

theorem procTokens_cons_nilTok (mc : Int) (fuel : Nat) (ts : List Str) (st : St) :
    procTokens mc fuel ([] :: ts) st = procTokens mc fuel ts st := rfl

theorem procTokens_cons (mc : Int) (fuel : Nat) (token : Str) (ts : List Str)
    (st : St) (h : ¬token.isEmpty = true) :
    procTokens mc fuel (token :: ts) st
      = match procStep mc fuel token st with
        | .ok st2 => procTokens mc fuel ts st2
        | .exn => .exn
        | .fuelOut => .fuelOut := by
  rw [procTokens]
  rw [if_neg h]

/-- C3 is false of the code: on `split_html_message("<pre>abc</pre>", 3)` the
inner text loop repeats the same state forever (the tag overhead alone exceeds
`max_chars`, the hard-cut index is negative, and no character is ever
consumed), so the function never returns no matter how much fuel it gets. -/
theorem C3_nontermination (fuel : Nat) :
    split_html_message "<pre>abc</pre>".data 3 fuel = .fuelOut := by
  rw [split_of_norm (by decide : normalize_html "<pre>abc</pre>".data
    = some "<pre>abc</pre>".data) 3 fuel]
  have hps : procStep 3 fuel "abc".data
      ⟨[[]], "<pre>".data, [("pre".data, "<pre>".data)]⟩ = .fuelOut := by
    rw [procStep_text 3 fuel "abc".data [[]] "<pre>".data
      [("pre".data, "<pre>".data)] (by decide)]
    rw [C3_loop_stuck fuel [[]]]
  have hpt : procTokens 3 fuel (tokenize "<pre>abc</pre>".data) ⟨[], [], []⟩
      = .fuelOut := by
    rw [show tokenize "<pre>abc</pre>".data
      = [[], "<pre>".data, "abc".data, "</pre>".data, []] from by decide]
    rw [procTokens_cons_nilTok]
    rw [procTokens_cons 3 fuel "<pre>".data _ _ (by decide)]
    rw [show procStep 3 fuel "<pre>".data ⟨[], [], []⟩
      = .ok ⟨[[]], "<pre>".data, [("pre".data, "<pre>".data)]⟩ from rfl]
    show procTokens 3 fuel ["abc".data, "</pre>".data, []]
      ⟨[[]], "<pre>".data, [("pre".data, "<pre>".data)]⟩ = .fuelOut
    rw [procTokens_cons 3 fuel "abc".data _ _ (by decide)]
    rw [hps]
  rw [split_core, if_neg (by decide), hpt]

theorem pyRFind_lt_length (c : Char) : ∀ s : Str, pyRFind c s < (s.length : Int) := by
  intro s
  induction s with
  | nil => simp [pyRFind]
  | cons a t ih =>
    rw [pyRFind]
    by_cases h0 : (0 : Int) ≤ pyRFind c t
    · rw [if_pos h0]
      simp only [List.length_cons]
      push_cast
      omega
    · rw [if_neg h0]
      by_cases hac : a = c
      · rw [if_pos hac]
        simp only [List.length_cons]
        push_cast
        omega
      · rw [if_neg hac]
        simp only [List.length_cons]
        push_cast
        omega

theorem pySliceTo_length_le (s : Str) (k : Int) :
    (pySliceTo s k).length ≤ s.length := by
  unfold pySliceTo
  split <;> (rw [List.length_take]; omega)

theorem pySliceTo_length_le_int (s : Str) (k : Int) (hk : 0 ≤ k) :
    ((pySliceTo s k).length : Int) ≤ k := by
  unfold pySliceTo
  rw [if_pos hk, List.length_take]
  have := Int.toNat_of_nonneg hk
  omega

theorem head?_mem {s : Str} {c : Char} (h : s.head? = some c) : c ∈ s := by
  rw [head?_eq_cons h]
  exact List.mem_cons_self c s.tail

/-- A non-empty stack always contributes a `<` to the closing sequence. -/
theorem closing_has_lt {stack : List (Str × Str)} (h : stack ≠ []) :
    '<' ∈ get_closing_str stack := by
  unfold get_closing_str
  cases hrev : stack.reverse with
  | nil => exact absurd (by simpa using congrArg List.reverse hrev) h
  | cons e es =>
    simp only [List.map_cons, List.flatten_cons]
    exact List.mem_append_left _ (List.mem_cons_self _ _)

/-- If all stack entries contain `<` and the opening string does not,
the opening string is empty. -/
theorem opening_nil_of_no_lt {stack : List (Str × Str)}
    (hst : ∀ e ∈ stack, '<' ∈ e.2) (h : '<' ∉ get_opening_str stack) :
    get_opening_str stack = [] := by
  cases stack with
  | nil => rfl
  | cons e es =>
    exfalso
    apply h
    unfold get_opening_str
    simp only [List.map_cons, List.flatten_cons]
    exact List.mem_append_left _ (hst e (List.mem_cons_self _ _))

/-- The bound a chunk must meet unless it contains a tag character. -/
def ChunkOk (mc : Int) (c : Str) : Prop := '<' ∉ c → (c.length : Int) ≤ mc

/-- When the window is non-negative, a positive split index never exceeds the
available space. -/
theorem tlSplitIdx_le_available (mc : Int) (stack : List (Str × Str))
    (cc text : Str) (h0 : 0 ≤ tlAvailable mc stack cc)
    (hpos : 0 < tlSplitIdx mc stack cc text) :
    tlSplitIdx mc stack cc text ≤ tlAvailable mc stack cc := by
  have hcand : ((tlCandidate mc stack cc text).length : Int)
      ≤ tlAvailable mc stack cc :=
    pySliceTo_length_le_int text _ h0
  unfold tlSplitIdx
  unfold tlSplitIdx at hpos
  by_cases hsi : (if pyRFind '\n' (tlCandidate mc stack cc text) = -1
      then pyRFind ' ' (tlCandidate mc stack cc text)
      else pyRFind '\n' (tlCandidate mc stack cc text)) = -1
  · rw [if_pos hsi] at hpos ⊢
    split_ifs at hpos ⊢ with hdef
    · omega
    · omega
  · rw [if_neg hsi] at hpos ⊢
    have hlt : (if pyRFind '\n' (tlCandidate mc stack cc text) = -1
        then pyRFind ' ' (tlCandidate mc stack cc text)
        else pyRFind '\n' (tlCandidate mc stack cc text))
        < ((tlCandidate mc stack cc text).length : Int) := by
      split_ifs
      · exact pyRFind_lt_length ' ' _
      · exact pyRFind_lt_length '\n' _
    omega

/-- When the window is non-negative, one finalized text-loop chunk obeys the
`max_chars` bound. -/
theorem tlChunk_le (mc : Int) (stack : List (Str × Str)) (cc text : Str)
    (h0 : 0 ≤ tlAvailable mc stack cc) :
    ((tlCC2 mc stack cc text ++ get_closing_str stack).length : Int) ≤ mc := by
  have hav : tlAvailable mc stack cc
      = mc - cc.length - (get_closing_str stack).length := rfl
  unfold tlCC2
  split_ifs with hpos
  · have hle := tlSplitIdx_le_available mc stack cc text h0 hpos
    have hslice : ((pySliceTo text (tlSplitIdx mc stack cc text)).length : Int)
        ≤ tlSplitIdx mc stack cc text :=
      pySliceTo_length_le_int text _ (by omega)
    simp only [List.length_append]
    push_cast
    omega
  · simp only [List.length_append]
    push_cast
    omega

/-- Text-loop invariant for the size bound: if a text run is processed
successfully, every produced chunk and the resulting current chunk satisfy
`ChunkOk`. -/
theorem textLoop_chunkOk (mc : Int) (stack : List (Str × Str))
    (hst : ∀ e ∈ stack, '<' ∈ e.2) (hmc : 0 ≤ mc) :
    ∀ (fuel : Nat) (chunks : List Str) (cc text : Str) (res : List Str × Str),
      textLoop mc stack fuel chunks cc text = some res →
      (∀ c ∈ chunks, ChunkOk mc c) → ChunkOk mc cc →
      (∀ c ∈ res.1, ChunkOk mc c) ∧ ChunkOk mc res.2 := by
  intro fuel
  induction fuel with
  | zero => intro chunks cc text res h hch hcc; cases h
  | succ n ih =>
    intro chunks cc text res h hch hcc
    rw [textLoop] at h
    by_cases hemp : text.isEmpty
    · rw [if_pos hemp] at h
      have hres := Option.some.inj h
      rw [← hres]
      exact ⟨hch, hcc⟩
    · rw [if_neg hemp] at h
      by_cases hfit : (text.length : Int) ≤ tlAvailable mc stack cc
      · rw [if_pos hfit] at h
        have hres := Option.some.inj h
        rw [← hres]
        refine ⟨hch, ?_⟩
        intro _
        have hav : tlAvailable mc stack cc
            = mc - cc.length - (get_closing_str stack).length := rfl
        rw [hav] at hfit
        simp only [List.length_append]
        push_cast
        have hclos : (0 : Int) ≤ ((get_closing_str stack).length : Int) := by
          positivity
        omega
      · rw [if_neg hfit] at h
        apply ih _ _ _ _ h
        · intro c hc
          rcases List.mem_append.mp hc with hold | hnew
          · exact hch c hold
          · rw [List.mem_singleton] at hnew
            rw [hnew]
            intro hnl
            by_cases hA : 0 ≤ tlAvailable mc stack cc
            · exact tlChunk_le mc stack cc text hA
            · exfalso
              have hncc2 : '<' ∉ tlCC2 mc stack cc text := fun hm =>
                hnl (List.mem_append_left _ hm)
              have hnclos : '<' ∉ get_closing_str stack := fun hm =>
                hnl (List.mem_append_right _ hm)
              have hstk : stack = [] := by
                by_contra hne
                exact hnclos (closing_has_lt hne)
              have hncc : '<' ∉ cc := by
                intro hm
                apply hncc2
                unfold tlCC2
                split_ifs
                · exact List.mem_append_left _ hm
                · exact hm
              have hle := hcc hncc
              rw [hstk] at hA
              unfold tlAvailable at hA
              simp only [get_closing_str, List.reverse_nil, List.map_nil,
                List.flatten_nil, List.length_nil] at hA
              push_cast at hA
              omega
        · intro hnl
          rw [opening_nil_of_no_lt hst hnl]
          simpa using hmc

theorem removeFirst_subset (name : Str) :
    ∀ (l : List (Str × Str)) (e : Str × Str), e ∈ removeFirst name l → e ∈ l := by
  intro l
  induction l with
  | nil => intro e h; cases h
  | cons x xs ih =>
    intro e h
    rw [removeFirst] at h
    split_ifs at h with hx
    · exact List.mem_cons_of_mem _ h
    · rcases List.mem_cons.mp h with he | he
      · rw [he]; exact List.mem_cons_self _ _
      · exact List.mem_cons_of_mem _ (ih e he)

theorem popTag_subset (stack : List (Str × Str)) (name : Str) (e : Str × Str)
    (h : e ∈ popTag stack name) : e ∈ stack := by
  unfold popTag at h
  rw [List.mem_reverse] at h
  have := removeFirst_subset name stack.reverse e h
  rwa [List.mem_reverse] at this

/-- Main-loop invariant for the size bound. -/
theorem procTokens_chunkOk (mc : Int) (hmc : 0 ≤ mc) (fuel : Nat) :
    ∀ (tokens : List Str) (chunks : List Str) (cc : Str)
      (stack : List (Str × Str)) (st2 : St),
      procTokens mc fuel tokens ⟨chunks, cc, stack⟩ = .ok st2 →
      (∀ c ∈ chunks, ChunkOk mc c) → ChunkOk mc cc →
      (∀ e ∈ stack, '<' ∈ e.2) →
      (∀ c ∈ st2.chunks, ChunkOk mc c) ∧ ChunkOk mc st2.cc ∧
        (∀ e ∈ st2.stack, '<' ∈ e.2) := by
  intro tokens
  induction tokens with
  | nil =>
    intro chunks cc stack st2 h hch hcc hst
    have := Res.ok.inj h
    rw [← this]
    exact ⟨hch, hcc, hst⟩
  | cons token ts ih =>
    intro chunks cc stack st2 h hch hcc hst
    by_cases hemp : token.isEmpty
    · rw [procTokens, if_pos hemp] at h
      exact ih chunks cc stack st2 h hch hcc hst
    · rw [procTokens_cons mc fuel token ts _ hemp] at h
      by_cases hlt : token.head? = some '<'
      · rw [procStep_tag mc fuel token chunks cc stack hlt] at h
        rcases hex : extract_tag_info token with _ | info
        · rw [hex] at h; cases h
        · obtain ⟨tagName, isClosing, isVoid⟩ := info
          rw [hex] at h
          apply ih _ _ _ _ h
          · intro c hc
            split_ifs at hc with hover
            · rcases List.mem_append.mp hc with hold | hnew
              · exact hch c hold
              · rw [List.mem_singleton] at hnew
                rw [hnew]
                intro hnl
                have hncc : '<' ∉ cc := fun hm => hnl (List.mem_append_left _ hm)
                have hnclos : '<' ∉ get_closing_str stack := fun hm =>
                  hnl (List.mem_append_right _ hm)
                have hstk : stack = [] := by
                  by_contra hne
                  exact hnclos (closing_has_lt hne)
                have hle := hcc hncc
                rw [hstk]
                simp only [get_closing_str, List.reverse_nil, List.map_nil,
                  List.flatten_nil, List.append_nil]
                exact hle
            · exact hch c hc
          · intro hnl
            exfalso
            apply hnl
            apply List.mem_append_right
            exact head?_mem hlt
          · intro e he
            split_ifs at he
            · exact hst e (popTag_subset stack tagName e he)
            · rcases List.mem_append.mp he with hold | hnew
              · exact hst e hold
              · rw [List.mem_singleton] at hnew
                rw [hnew]
                exact head?_mem hlt
            · exact hst e he
            · exact hst e he
      · rw [procStep_text mc fuel token chunks cc stack hlt] at h
        rcases htl : textLoop mc stack fuel chunks cc token with _ | r
        · rw [htl] at h; cases h
        · rw [htl] at h
          obtain ⟨hres1, hres2⟩ :=
            textLoop_chunkOk mc stack hst hmc fuel chunks cc token r htl hch hcc
          exact ih _ _ _ _ h hres1 hres2 hst

/-- C1 (amended): every returned chunk that contains no `<` character has
length at most `max_chars`.  (Chunks containing tag characters can exceed the
bound whenever the reopened-skeleton plus closing-tag overhead does not fit,
even when no single token is oversized — see `C1_counterexample`.) -/
theorem C1_size_bound_amended (html : Str) (mc : Int) (fuel : Nat)
    (cs : List Str) (hmc : 0 < mc)
    (h : split_html_message html mc fuel = .ok cs) :
    ∀ c ∈ cs, '<' ∉ c → (c.length : Int) ≤ mc := by
  rcases hn : normalize_html html with _ | nh
  · rw [split_of_norm_exn hn] at h; cases h
  · rw [split_of_norm hn, split_core] at h
    by_cases hle : (nh.length : Int) ≤ mc
    · rw [if_pos hle] at h
      have hcs := Res.ok.inj h
      rw [← hcs]
      intro c hc _
      rw [List.mem_singleton] at hc
      rw [hc]
      exact hle
    · rw [if_neg hle] at h
      rcases hpt : procTokens mc fuel (tokenize nh) ⟨[], [], []⟩ with st | _ | _
      · rw [hpt] at h
        obtain ⟨hch, hcc, hst⟩ := procTokens_chunkOk mc (le_of_lt hmc) fuel
          (tokenize nh) [] [] [] st hpt (by intro c hc; cases hc)
          (by intro _; simp; omega) (by intro e he; cases he)
        have h2 : Res.ok ((if st.cc.isEmpty then st.chunks
              else st.chunks ++ [st.cc ++ get_closing_str st.stack]).filter
            fun c => !(decide (c = []) || decide (c = get_opening_str [])))
            = Res.ok cs := h
        have hcs := Res.ok.inj h2
        rw [← hcs]
        intro c hc hnl
        have hcmem := (List.mem_filter.mp hc).1
        split_ifs at hcmem with hccEmp
        · exact hch c hcmem hnl
        · rcases List.mem_append.mp hcmem with hold | hnew
          · exact hch c hold hnl
          · rw [List.mem_singleton] at hnew
            rw [hnew] at hnl ⊢
            have hncc : '<' ∉ st.cc := fun hm => hnl (List.mem_append_left _ hm)
            have hnclos : '<' ∉ get_closing_str st.stack := fun hm =>
              hnl (List.mem_append_right _ hm)
            have hstk : st.stack = [] := by
              by_contra hne
              exact hnclos (closing_has_lt hne)
            rw [hstk]
            simp only [get_closing_str, List.reverse_nil, List.map_nil,
              List.flatten_nil, List.append_nil]
            exact hcc hncc
      · rw [hpt] at h; cases h
      · rw [hpt] at h; cases h

theorem C1_size_bound_amended_witness :
    ((0 : Int) < 6) ∧
      (∀ c ∈ ["aaaa ".data, "bbbb ".data, "cccc".data], '<' ∉ c →
        (c.length : Int) ≤ 6) :=
  ⟨by decide,
    C1_size_bound_amended "aaaa bbbb cccc".data 6 30
      ["aaaa ".data, "bbbb ".data, "cccc".data] (by decide) (by decide)⟩

/-- C1 is false as stated: with `max_chars = 13`, the input
`"<b>a b<i><u></u></i></b>"` produces the chunk `"<b>a b<i></i></b>"` of
length `17 > 13`, which is not a single unsplittable token (it contains a
space, several tags — none longer than 13 — and plain text). -/
theorem C1_counterexample :
    split_html_message "<b>a b<i><u></u></i></b>".data 13 2
      = .ok ["<b>a b<i></i></b>".data, "<b><i><u></u></i></b>".data,
          "<b><i><u></u></i></b>".data, "<b><i></i></b>".data, "<b></b>".data]
    ∧ ("<b>a b<i></i></b>".data : Str).length = 17
    ∧ ' ' ∈ "<b>a b<i></i></b>".data ∧ 'a' ∈ "<b>a b<i></i></b>".data
    ∧ (∀ tok ∈ tokenize "<b>a b<i><u></u></i></b>".data,
        (tok.length : Int) ≤ 13) := by
  refine ⟨by decide, by decide, by decide, by decide, by decide⟩

theorem textLoop_mono (mc : Int) (stack : List (Str × Str)) :
    ∀ (fuel : Nat) (chunks : List Str) (cc text : Str) (r : List Str × Str),
      textLoop mc stack fuel chunks cc text = some r →
      textLoop mc stack (fuel + 1) chunks cc text = some r := by
  intro fuel
  induction fuel with
  | zero => intro chunks cc text r h; cases h
  | succ n ih =>
    intro chunks cc text r h
    rw [textLoop] at h
    rw [textLoop]
    by_cases hemp : text.isEmpty
    · rw [if_pos hemp] at h ⊢; exact h
    · rw [if_neg hemp] at h ⊢
      by_cases hfit : (text.length : Int) ≤ tlAvailable mc stack cc
      · rw [if_pos hfit] at h ⊢; exact h
      · rw [if_neg hfit] at h ⊢
        exact ih _ _ _ _ h

theorem textLoop_mono_le (mc : Int) (stack : List (Str × Str))
    (f1 f2 : Nat) (hle : f1 ≤ f2) (chunks : List Str) (cc text : Str)
    (r : List Str × Str) (h : textLoop mc stack f1 chunks cc text = some r) :
    textLoop mc stack f2 chunks cc text = some r := by
  induction f2 with
  | zero =>
    have : f1 = 0 := by omega
    rw [← this]; exact h
  | succ n ih =>
    by_cases he : f1 = n + 1
    · rw [← he]; exact h
    · exact textLoop_mono mc stack n chunks cc text r (ih (by omega))

theorem procStep_tag_fuel (mc : Int) (f1 f2 : Nat) (token : Str) (st : St)
    (h2 : token.head? = some '<') :
    procStep mc f1 token st = procStep mc f2 token st := by
  unfold procStep
  rw [if_pos h2, if_pos h2]

theorem procStep_mono (mc : Int) (fuel : Nat) (token : Str) (st st2 : St)
    (h : procStep mc fuel token st = .ok st2) :
    procStep mc (fuel + 1) token st = .ok st2 := by
  by_cases hlt : token.head? = some '<'
  · rw [procStep_tag_fuel mc (fuel + 1) fuel token st hlt]
    exact h
  · obtain ⟨chunks, cc, stack⟩ := st
    rw [procStep_text mc fuel token chunks cc stack hlt] at h
    rw [procStep_text mc (fuel + 1) token chunks cc stack hlt]
    rcases htl : textLoop mc stack fuel chunks cc token with _ | r
    · rw [htl] at h; cases h
    · rw [htl] at h
      rw [textLoop_mono mc stack fuel chunks cc token r htl]
      exact h

theorem procTokens_mono (mc : Int) (fuel : Nat) :
    ∀ (tokens : List Str) (st st2 : St),
      procTokens mc fuel tokens st = .ok st2 →
      procTokens mc (fuel + 1) tokens st = .ok st2 := by
  intro tokens
  induction tokens with
  | nil => intro st st2 h; exact h
  | cons token ts ih =>
    intro st st2 h
    by_cases hemp : token.isEmpty
    · rw [procTokens, if_pos hemp] at h ⊢
      exact ih st st2 h
    · rw [procTokens_cons mc fuel token ts st hemp] at h
      rw [procTokens_cons mc (fuel + 1) token ts st hemp]
      rcases hps : procStep mc fuel token st with stm | _ | _
      · rw [hps] at h
        rw [procStep_mono mc fuel token st stm hps]
        exact ih stm st2 h
      · rw [hps] at h; cases h
      · rw [hps] at h; cases h

theorem split_mono (html : Str) (mc : Int) (fuel : Nat) (cs : List Str)
    (h : split_html_message html mc fuel = .ok cs) :
    split_html_message html mc (fuel + 1) = .ok cs := by
  rcases hn : normalize_html html with _ | nh
  · rw [split_of_norm_exn hn] at h; cases h
  · rw [split_of_norm hn, split_core] at h
    rw [split_of_norm hn, split_core]
    by_cases hle : (nh.length : Int) ≤ mc
    · rw [if_pos hle] at h ⊢; exact h
    · rw [if_neg hle] at h ⊢
      rcases hpt : procTokens mc fuel (tokenize nh) ⟨[], [], []⟩ with st | _ | _
      · rw [hpt] at h
        rw [procTokens_mono mc fuel (tokenize nh) ⟨[], [], []⟩ st hpt]
        exact h
      · rw [hpt] at h; cases h
      · rw [hpt] at h; cases h

theorem split_mono_le (html : Str) (mc : Int) (f1 f2 : Nat) (hle : f1 ≤ f2)
    (cs : List Str) (h : split_html_message html mc f1 = .ok cs) :
    split_html_message html mc f2 = .ok cs := by
  induction f2 with
  | zero =>
    have : f1 = 0 := by omega
    rw [← this]; exact h
  | succ n ih =>
    by_cases he : f1 = n + 1
    · rw [← he]; exact h
    · exact split_mono html mc n cs (ih (by omega))

/-- Two successful runs (with any amounts of fuel) return the same chunks. -/
theorem split_ok_unique (html : Str) (mc : Int) (f1 f2 : Nat)
    (cs1 cs2 : List Str) (h1 : split_html_message html mc f1 = .ok cs1)
    (h2 : split_html_message html mc f2 = .ok cs2) : cs1 = cs2 := by
  have g1 := split_mono_le html mc f1 (max f1 f2) (le_max_left _ _) cs1 h1
  have g2 := split_mono_le html mc f2 (max f1 f2) (le_max_right _ _) cs2 h2
  rw [g1] at g2
  exact Res.ok.inj g2

/-- The chunks actually produced by
`split("<b><i>alpha beta gamma</i></b>", max_chars = 15)`. -/
def C6_chunks : List Str :=
  ["<b><i>a</i></b>".data, "<b><i>l</i></b>".data, "<b><i>p</i></b>".data,
   "<b><i>h</i></b>".data, "<b><i>a</i></b>".data, "<b><i> </i></b>".data,
   "<b><i>b</i></b>".data, "<b><i>e</i></b>".data, "<b><i>t</i></b>".data,
   "<b><i>a</i></b>".data, "<b><i> </i></b>".data, "<b><i>g</i></b>".data,
   "<b><i>a</i></b>".data, "<b><i>m</i></b>".data, "<b><i>m</i></b>".data,
   "<b><i>a</i></b>".data, "<b><i></i></b>".data, "<b></b>".data]

/-- C6 is false as stated on its own example: the run produces 18 chunks and
the final chunk is `"<b></b>"`, which is after the first chunk but does not
begin with `"<b><i>"` (the `<i>` tag is no longer open at that boundary). -/
theorem C6_counterexample :
    split_html_message "<b><i>alpha beta gamma</i></b>".data 15 20
        = .ok C6_chunks
      ∧ C6_chunks.getLast? = some "<b></b>".data
      ∧ 2 ≤ C6_chunks.length
      ∧ ¬(("<b></b>".data : Str).take 6 = "<b><i>".data) := by
  refine ⟨by decide, by decide, by decide, by decide⟩

/-- C6 (amended): `split("<b><i>alpha beta gamma</i></b>", 15)` yields the 18
chunks `C6_chunks`: every chunk strictly between the first and the last begins
with `"<b><i>"`, every chunk before the last ends with `"</i></b>"`, and the
final chunk begins with the opening sequence of the tags still open at its
boundary — only `"<b>"`, since `</i>` has been consumed — not `"<b><i>"`. -/
theorem C6_nesting_amended (fuel : Nat) (cs : List Str)
    (h : split_html_message "<b><i>alpha beta gamma</i></b>".data 15 fuel
      = .ok cs) :
    cs = C6_chunks
      ∧ 2 ≤ cs.length
      ∧ (∀ c ∈ (cs.drop 1).dropLast, c.take 6 = "<b><i>".data)
      ∧ (∀ c ∈ cs.dropLast, c.drop (c.length - 8) = "</i></b>".data)
      ∧ cs.getLast? = some "<b></b>".data
      ∧ ("<b></b>".data : Str).take 3 = "<b>".data := by
  have hbase : split_html_message "<b><i>alpha beta gamma</i></b>".data 15 20
      = .ok C6_chunks := by decide
  have hcs := split_ok_unique "<b><i>alpha beta gamma</i></b>".data 15 fuel 20
    cs C6_chunks h hbase
  subst hcs
  refine ⟨rfl, by decide, by decide, by decide, by decide, by decide⟩

theorem C6_nesting_amended_witness :
    C6_chunks = C6_chunks
      ∧ 2 ≤ C6_chunks.length
      ∧ (∀ c ∈ (C6_chunks.drop 1).dropLast, c.take 6 = "<b><i>".data)
      ∧ (∀ c ∈ C6_chunks.dropLast, c.drop (c.length - 8) = "</i></b>".data)
      ∧ C6_chunks.getLast? = some "<b></b>".data
      ∧ ("<b></b>".data : Str).take 3 = "<b>".data :=
  C6_nesting_amended 20 C6_chunks (by decide)

/-- C7 is false as stated: the code has no entity protection.  On the spec's
own example, `split("text &amp; more text", max_chars = 4)` yields the chunk
`"&amp"` immediately followed by a chunk starting in `";"`; and hard-cutting a
long word can also split an entity anywhere, as with `max_chars = 14` on
`"aaaaaaaaaaaa&amp;bbbb"`, whose first chunk ends `"...&a"`. -/
theorem C7_counterexample :
    split_html_message "text &amp; more text".data 4 30
        = .ok ["text".data, " ".data, "&amp".data, "; ".data, "more".data,
            " ".data, "text".data]
      ∧ split_html_message "aaaaaaaaaaaa&amp;bbbb".data 14 5
          = .ok ["aaaaaaaaaaaa&a".data, "mp;bbbb".data]
      ∧ '&' ∈ ("aaaaaaaaaaaa&a".data : Str)
      ∧ ';' ∉ ("aaaaaaaaaaaa&a".data : Str)
      ∧ ("aaaaaaaaaaaa&a".data : Str).drop 12 = "&a".data
      ∧ ("mp;bbbb".data : Str).take 3 = "mp;".data := by
  refine ⟨by decide, by decide, by decide, by decide, by decide, by decide⟩

/-- No adjacent pair of chunks has the first ending in `"&amp"` while the
next starts with `";"`. -/
def noAmpSemiCut : List Str → Bool
  | c1 :: c2 :: rest =>
    (!("&amp".data.isSuffixOf c1 && decide (c2.head? = some ';')))
      && noAmpSemiCut (c2 :: rest)
  | _ => true

/-- All small `max_chars` runs of the spec example, checked by evaluation. -/
def C7check (n : Nat) : Bool :=
  match split_html_message "text &amp; more text".data (n : Int) 30 with
  | .ok cs2 => noAmpSemiCut cs2
  | _ => decide (n = 0)

/-- C7 (amended): the code has no entity protection in general and the spec's
example even fails at `max_chars = 4`, but on that example
`"text &amp; more text"` with any `max_chars ≥ 5` the whitespace-preference
rule means no chunk ever ends in `"&amp"` with the next chunk starting
in `";"`. -/
theorem C7_entity_amended (mc : Int) (fuel : Nat) (cs : List Str)
    (hmc : 5 ≤ mc)
    (h : split_html_message "text &amp; more text".data mc fuel = .ok cs) :
    noAmpSemiCut cs = true := by
  by_cases hbig : 20 ≤ mc
  · have hn : normalize_html "text &amp; more text".data
        = some "text &amp; more text".data := by decide
    have hid := C10_small_input_identity "text &amp; more text".data mc fuel
      "text &amp; more text".data hn
      (by rw [show ("text &amp; more text".data : Str).length = 20 from
        by decide]; push_cast; omega)
    rw [hid] at h
    have hcs := Res.ok.inj h
    rw [← hcs]
    rfl
  · have hall : ∀ n : Nat, n < 20 → 5 ≤ n → C7check n = true := by decide
    have hn0 : (0 : Int) ≤ mc := by omega
    have hmceq : ((mc.toNat : Nat) : Int) = mc := Int.toNat_of_nonneg hn0
    have hc := hall mc.toNat (by omega) (by omega)
    unfold C7check at hc
    rcases hsp : split_html_message "text &amp; more text".data
        ((mc.toNat : Nat) : Int) 30 with cs2 | _ | _
    · rw [hsp] at hc
      rw [hmceq] at hsp
      have := split_ok_unique "text &amp; more text".data mc fuel 30 cs cs2 h hsp
      rw [this]
      exact hc
    · rw [hsp] at hc
      simp only [decide_eq_true_eq] at hc
      omega
    · rw [hsp] at hc
      simp only [decide_eq_true_eq] at hc
      omega

theorem C7_entity_amended_witness :
    noAmpSemiCut ["text ".data, "&amp;".data, " ".data, "more ".data,
      "text".data] = true :=
  C7_entity_amended 5 30
    ["text ".data, "&amp;".data, " ".data, "more ".data, "text".data]
    (by decide) (by decide)

/-- Ghost chunk, tracking what the algorithm assembled: the stack whose
opening sequence seeded the chunk, the list of real-content pieces appended
(tag tokens and text fragments), and the stack whose closing sequence was
appended at finalization. -/
structure GChunk where
  s0 : List (Str × Str)
  pieces : List Str
  e : List (Str × Str)
deriving DecidableEq, Repr

/-- The real content of a ghost chunk (everything that is not a synthetic
reopened-tag or closing-tag sequence). -/
def GChunk.core (g : GChunk) : Str := g.pieces.flatten

/-- The chunk string a ghost chunk denotes. -/
def GChunk.proj (g : GChunk) : Str :=
  get_opening_str g.s0 ++ g.pieces.flatten ++ get_closing_str g.e

/-- Ghost loop state mirroring `St`: finalized ghost chunks, the seed stack
and pieces of the current chunk, and the live tag stack. -/
structure GSt where
  gchunks : List GChunk
  s0 : List (Str × Str)
  pieces : List Str
  stack : List (Str × Str)
deriving DecidableEq, Repr

/-- The current chunk string of a ghost state. -/
def GSt.cc (g : GSt) : Str := get_opening_str g.s0 ++ g.pieces.flatten

/-- Ghost version of the text loop, mirroring `textLoop` step for step. -/
def textLoopG (mc : Int) (stack : List (Str × Str)) :
    Nat → List GChunk → List (Str × Str) → List Str → Str →
      Option (List GChunk × List (Str × Str) × List Str)
  | 0, _, _, _, _ => none
  | fuel + 1, gchunks, s0, pieces, text =>
    if text.isEmpty then some (gchunks, s0, pieces)
    else if (text.length : Int)
        ≤ tlAvailable mc stack (get_opening_str s0 ++ pieces.flatten) then
      some (gchunks, s0, pieces ++ [text])
    else
      textLoopG mc stack fuel
        (gchunks ++
          [⟨s0,
            pieces ++
              (if 0 < tlSplitIdx mc stack
                    (get_opening_str s0 ++ pieces.flatten) text
               then [pySliceTo text
                 (tlSplitIdx mc stack (get_opening_str s0 ++ pieces.flatten)
                   text)]
               else []),
            stack⟩])
        stack []
        (tlText2 mc stack (get_opening_str s0 ++ pieces.flatten) text)

/-- Ghost version of `procStep`, mirroring it step for step. -/
def procStepG (mc : Int) (fuel : Nat) (token : Str) (g : GSt) : Res GSt :=
  if token.head? = some '<' then
    match extract_tag_info token with
    | none => .exn
    | some (tagName, isClosing, isVoid) =>
      let over : Bool :=
        decide (mc < ((GSt.cc g).length : Int) + (token.length : Int)
          + ((get_closing_str g.stack).length : Int))
      let gchunks :=
        if over then g.gchunks ++ [⟨g.s0, g.pieces, g.stack⟩] else g.gchunks
      let s0 := if over then g.stack else g.s0
      let pieces := (if over then [] else g.pieces) ++ [token]
      let stack :=
        if tagName ∈ ALLOWED_TAGS then
          if isClosing then popTag g.stack tagName
          else if !isVoid then g.stack ++ [(tagName, token)]
          else g.stack
        else g.stack
      .ok ⟨gchunks, s0, pieces, stack⟩
  else
    match textLoopG mc g.stack fuel g.gchunks g.s0 g.pieces token with
    | none => .fuelOut
    | some r => .ok ⟨r.1, r.2.1, r.2.2, g.stack⟩

/-- Ghost version of `procTokens`. -/
def procTokensG (mc : Int) (fuel : Nat) : List Str → GSt → Res GSt
  | [], g => .ok g
  | token :: rest, g =>
    if token.isEmpty then procTokensG mc fuel rest g
    else
      match procStepG mc fuel token g with
      | .ok g2 => procTokensG mc fuel rest g2
      | .exn => .exn
      | .fuelOut => .fuelOut

def Res.mapR {α β : Type} (f : α → β) : Res α → Res β
  | .ok a => .ok (f a)
  | .exn => .exn
  | .fuelOut => .fuelOut

/-- Ghost version of `split_core`. -/
def split_coreG (nh : Str) (mc : Int) (fuel : Nat) : Res (List GChunk) :=
  if (nh.length : Int) ≤ mc then .ok [⟨[], [nh], []⟩]
  else
    match procTokensG mc fuel (tokenize nh) ⟨[], [], [], []⟩ with
    | .exn => .exn
    | .fuelOut => .fuelOut
    | .ok g =>
      let gchunks :=
        if (GSt.cc g).isEmpty then g.gchunks
        else g.gchunks ++ [⟨g.s0, g.pieces, g.stack⟩]
      .ok (gchunks.filter fun gc =>
        !(decide (gc.proj = []) || decide (gc.proj = get_opening_str [])))

/-- Erasure: the ghost text loop projects to the real text loop. -/
theorem textLoopG_erase (mc : Int) (stack : List (Str × Str)) :
    ∀ (fuel : Nat) (gchunks : List GChunk) (s0 : List (Str × Str))
      (pieces : List Str) (text : Str),
      textLoop mc stack fuel (gchunks.map GChunk.proj)
          (get_opening_str s0 ++ pieces.flatten) text
        = (textLoopG mc stack fuel gchunks s0 pieces text).map
            (fun r => (r.1.map GChunk.proj,
              get_opening_str r.2.1 ++ r.2.2.flatten)) := by
  intro fuel
  induction fuel with
  | zero => intro gchunks s0 pieces text; rfl
  | succ n ih =>
    intro gchunks s0 pieces text
    rw [textLoop, textLoopG]
    by_cases hemp : text.isEmpty
    · rw [if_pos hemp, if_pos hemp]; rfl
    · rw [if_neg hemp, if_neg hemp]
      by_cases hfit : (text.length : Int)
          ≤ tlAvailable mc stack (get_opening_str s0 ++ pieces.flatten)
      · rw [if_pos hfit, if_pos hfit]
        simp [List.flatten_append, List.append_assoc]
      · rw [if_neg hfit, if_neg hfit]
        rw [← ih]
        congr 1
        · simp only [List.map_append, List.map_cons, List.map_nil]
          congr 1
          simp only [GChunk.proj, tlCC2, List.flatten_append]
          split_ifs with hpos <;> simp [List.append_assoc]
        · simp

/-- Erasure: the ghost token step projects to the real token step. -/
theorem procStepG_erase (mc : Int) (fuel : Nat) (token : Str) (g : GSt) :
    procStep mc fuel token ⟨g.gchunks.map GChunk.proj, GSt.cc g, g.stack⟩
      = (procStepG mc fuel token g).mapR
          (fun g2 => ⟨g2.gchunks.map GChunk.proj, GSt.cc g2, g2.stack⟩) := by
  by_cases hlt : token.head? = some '<'
  · rw [procStep_tag mc fuel token _ _ _ hlt]
    unfold procStepG
    rw [if_pos hlt]
    rcases hex : extract_tag_info token with _ | info
    · rfl
    · obtain ⟨tagName, isClosing, isVoid⟩ := info
      simp only [Res.mapR]
      split_ifs <;>
        simp [GSt.cc, GChunk.proj, List.flatten_append, List.append_assoc]
  · rw [procStep_text mc fuel token _ _ _ hlt]
    unfold procStepG
    rw [if_neg hlt]
    have her := textLoopG_erase mc g.stack fuel g.gchunks g.s0 g.pieces token
    simp only [GSt.cc]
    rw [her]
    rcases textLoopG mc g.stack fuel g.gchunks g.s0 g.pieces token with _ | r
    · rfl
    · rfl

/-- Erasure: the ghost token loop projects to the real token loop. -/
theorem procTokensG_erase (mc : Int) (fuel : Nat) :
    ∀ (tokens : List Str) (g : GSt),
      procTokens mc fuel tokens ⟨g.gchunks.map GChunk.proj, GSt.cc g, g.stack⟩
        = (procTokensG mc fuel tokens g).mapR
            (fun g2 => ⟨g2.gchunks.map GChunk.proj, GSt.cc g2, g2.stack⟩) := by
  intro tokens
  induction tokens with
  | nil => intro g; rfl
  | cons token ts ih =>
    intro g
    by_cases hemp : token.isEmpty
    · rw [procTokens, if_pos hemp, procTokensG, if_pos hemp]
      exact ih g
    · rw [procTokens_cons mc fuel token ts _ hemp]
      rw [procTokensG, if_neg hemp]
      rw [procStepG_erase mc fuel token g]
      rcases procStepG mc fuel token g with g2 | _ | _
      · simp only [Res.mapR]
        exact ih g2
      · rfl
      · rfl

theorem filter_map_comm {α β : Type} (f : α → β) (p : β → Bool) :
    ∀ l : List α, (l.map f).filter p = (l.filter fun a => p (f a)).map f := by
  intro l
  induction l with
  | nil => rfl
  | cons a t ih =>
    simp only [List.map_cons, List.filter_cons]
    by_cases hp : p (f a)
    · rw [if_pos hp, if_pos hp, List.map_cons, ih]
    · rw [if_neg hp, if_neg hp, ih]

/-- Erasure: the ghost splitter projects to the real splitter. -/
theorem split_coreG_erase (nh : Str) (mc : Int) (fuel : Nat) :
    split_core nh mc fuel
      = (split_coreG nh mc fuel).mapR (List.map GChunk.proj) := by
  rw [split_core, split_coreG]
  by_cases hle : (nh.length : Int) ≤ mc
  · rw [if_pos hle, if_pos hle]
    simp [Res.mapR, GChunk.proj, get_opening_str, get_closing_str]
  · rw [if_neg hle, if_neg hle]
    have her := procTokensG_erase mc fuel (tokenize nh) ⟨[], [], [], []⟩
    rw [show (⟨[], [], []⟩ : St)
      = ⟨(List.map GChunk.proj []), GSt.cc ⟨[], [], [], []⟩, []⟩ from rfl]
    rw [her]
    rcases procTokensG mc fuel (tokenize nh) ⟨[], [], [], []⟩ with g | _ | _
    · simp only [Res.mapR]
      congr 1
      by_cases hcce : (GSt.cc g).isEmpty
      · rw [if_pos hcce, if_pos hcce, filter_map_comm]
      · rw [if_neg hcce, if_neg hcce]
        rw [show (List.map GChunk.proj g.gchunks
              ++ [GSt.cc g ++ get_closing_str g.stack])
            = List.map GChunk.proj
                (g.gchunks ++ [⟨g.s0, g.pieces, g.stack⟩]) from by
          simp [GChunk.proj, GSt.cc, List.append_assoc]]
        rw [filter_map_comm]
    · rfl
    · rfl

theorem pySlice_append (s : Str) (k : Int) :
    pySliceTo s k ++ pySliceFrom s k = s := by
  unfold pySliceTo pySliceFrom
  by_cases hk : 0 ≤ k
  · rw [if_pos hk, if_pos hk]
    exact List.take_append_drop _ _
  · rw [if_neg hk, if_neg hk]
    exact List.take_append_drop _ _

/-- The real content of a list of ghost chunks, in order. -/
def gcores (gchunks : List GChunk) : Str := (gchunks.map GChunk.core).flatten

theorem gcores_append (a b : List GChunk) :
    gcores (a ++ b) = gcores a ++ gcores b := by
  unfold gcores
  rw [List.map_append, List.flatten_append]

/-- Content accounting for the ghost text loop: the content recorded by the
loop grows by exactly the processed text. -/
theorem textLoopG_consumed (mc : Int) (stack : List (Str × Str)) :
    ∀ (fuel : Nat) (gchunks : List GChunk) (s0 : List (Str × Str))
      (pieces : List Str) (text : Str)
      (res : List GChunk × List (Str × Str) × List Str),
      textLoopG mc stack fuel gchunks s0 pieces text = some res →
      gcores res.1 ++ res.2.2.flatten
        = gcores gchunks ++ pieces.flatten ++ text := by
  intro fuel
  induction fuel with
  | zero => intro gchunks s0 pieces text res h; cases h
  | succ n ih =>
    intro gchunks s0 pieces text res h
    rw [textLoopG] at h
    by_cases hemp : text.isEmpty
    · rw [if_pos hemp] at h
      have hres := Option.some.inj h
      rw [← hres]
      rw [List.isEmpty_iff.mp hemp]
      simp
    · rw [if_neg hemp] at h
      by_cases hfit : (text.length : Int)
          ≤ tlAvailable mc stack (get_opening_str s0 ++ pieces.flatten)
      · rw [if_pos hfit] at h
        have hres := Option.some.inj h
        rw [← hres]
        simp [List.flatten_append, List.append_assoc]
      · rw [if_neg hfit] at h
        have hrec := ih _ _ _ _ _ h
        rw [hrec, gcores_append]
        unfold tlText2
        by_cases hpos : 0 < tlSplitIdx mc stack
            (get_opening_str s0 ++ pieces.flatten) text
        · rw [if_pos hpos]
          simp only [if_pos hpos, gcores, List.map_cons, List.map_nil,
            List.flatten_cons, List.flatten_nil, GChunk.core,
            List.flatten_append, List.append_nil]
          simp only [List.flatten_cons, List.flatten_nil, List.append_nil,
            List.append_assoc, List.nil_append]
          rw [pySlice_append]
        · rw [if_neg hpos]
          simp only [if_neg hpos, gcores, List.map_cons, List.map_nil,
            List.flatten_cons, List.flatten_nil, GChunk.core,
            List.flatten_append, List.append_nil,
            List.append_assoc, List.nil_append]

/-- Content accounting for one ghost token step. -/
theorem procStepG_consumed (mc : Int) (fuel : Nat) (token : Str) (g g2 : GSt)
    (h : procStepG mc fuel token g = .ok g2) :
    gcores g2.gchunks ++ g2.pieces.flatten
      = gcores g.gchunks ++ g.pieces.flatten ++ token := by
  unfold procStepG at h
  by_cases hlt : token.head? = some '<'
  · rw [if_pos hlt] at h
    rcases hex : extract_tag_info token with _ | info
    · rw [hex] at h; cases h
    · obtain ⟨tagName, isClosing, isVoid⟩ := info
      rw [hex] at h
      have hg2 := Res.ok.inj h
      rw [← hg2]
      split_ifs <;>
        simp [gcores_append, gcores, GChunk.core, List.flatten_append,
          List.append_assoc]
  · rw [if_neg hlt] at h
    rcases htl : textLoopG mc g.stack fuel g.gchunks g.s0 g.pieces token
        with _ | r
    · rw [htl] at h; cases h
    · rw [htl] at h
      have hg2 := Res.ok.inj h
      rw [← hg2]
      exact textLoopG_consumed mc g.stack fuel g.gchunks g.s0 g.pieces token r
        htl

/-- Content accounting for the ghost token loop. -/
theorem procTokensG_consumed (mc : Int) (fuel : Nat) :
    ∀ (tokens : List Str) (g g2 : GSt),
      procTokensG mc fuel tokens g = .ok g2 →
      gcores g2.gchunks ++ g2.pieces.flatten
        = gcores g.gchunks ++ g.pieces.flatten ++ tokens.flatten := by
  intro tokens
  induction tokens with
  | nil =>
    intro g g2 h
    have := Res.ok.inj h
    rw [← this]
    simp
  | cons token ts ih =>
    intro g g2 h
    by_cases hemp : token.isEmpty
    · rw [procTokensG, if_pos hemp] at h
      rw [ih g g2 h, List.isEmpty_iff.mp hemp]
      simp
    · rw [procTokensG, if_neg hemp] at h
      rcases hps : procStepG mc fuel token g with gm | _ | _
      · rw [hps] at h
        rw [ih gm g2 h, procStepG_consumed mc fuel token g gm hps]
        simp [List.append_assoc]
      · rw [hps] at h; cases h
      · rw [hps] at h; cases h

theorem proj_nil_core_nil {gc : GChunk} (h : gc.proj = []) : gc.core = [] := by
  unfold GChunk.proj at h
  have := List.append_eq_nil.mp h
  have := List.append_eq_nil.mp this.1
  exact this.2

/-- Dropping chunks that project to the empty string does not change the
recorded content. -/
theorem gcores_filter (l : List GChunk) :
    gcores (l.filter fun gc =>
        !(decide (gc.proj = []) || decide (gc.proj = get_opening_str [])))
      = gcores l := by
  induction l with
  | nil => rfl
  | cons gc t ih =>
    rw [List.filter_cons]
    by_cases hp : (!(decide (gc.proj = [])
        || decide (gc.proj = get_opening_str []))) = true
    · rw [if_pos hp]
      show gcores (gc :: _) = _
      unfold gcores
      simp only [List.map_cons, List.flatten_cons]
      unfold gcores at ih
      rw [ih]
    · rw [if_neg hp]
      have hnil : gc.proj = [] := by
        simp only [Bool.not_eq_true', Bool.not_eq_false] at hp
        rcases Bool.or_eq_true_iff.mp hp with hd | hd
        · exact of_decide_eq_true hd
        · exact of_decide_eq_true hd
      have hcore := proj_nil_core_nil hnil
      unfold gcores
      simp only [List.map_cons, List.flatten_cons, hcore, List.nil_append]
      unfold gcores at ih
      rw [ih]

/-- C2: content preservation.  Every successful run decomposes each returned
chunk as `opening-sequence ++ real-content ++ closing-sequence` (witnessed by
the ghost run), and the concatenation of the real-content cores reproduces
the normalized input exactly, in order. -/
theorem C2_content_preservation (html : Str) (mc : Int) (fuel : Nat)
    (cs : List Str) (h : split_html_message html mc fuel = .ok cs) :
    ∃ (nh : Str) (gs : List GChunk),
      normalize_html html = some nh
        ∧ split_coreG nh mc fuel = .ok gs
        ∧ cs = gs.map GChunk.proj
        ∧ (gs.map GChunk.core).flatten = nh := by
  rcases hn : normalize_html html with _ | nh
  · rw [split_of_norm_exn hn] at h; cases h
  · rw [split_of_norm hn, split_coreG_erase] at h
    rcases hg : split_coreG nh mc fuel with gs | _ | _
    · rw [hg] at h
      simp only [Res.mapR] at h
      have hcs := (Res.ok.inj h).symm
      refine ⟨nh, gs, rfl, hg, hcs, ?_⟩
      rw [split_coreG] at hg
      by_cases hle : (nh.length : Int) ≤ mc
      · rw [if_pos hle] at hg
        have := Res.ok.inj hg
        rw [← this]
        simp [GChunk.core]
      · rw [if_neg hle] at hg
        rcases hpt : procTokensG mc fuel (tokenize nh) ⟨[], [], [], []⟩
            with g | _ | _
        · rw [hpt] at hg
          have hcons := procTokensG_consumed mc fuel (tokenize nh)
            ⟨[], [], [], []⟩ g hpt
          rw [tokenize_flatten] at hcons
          simp only [gcores, List.map_nil, List.flatten_nil,
            List.nil_append] at hcons
          have hgs := Res.ok.inj hg
          show gcores gs = nh
          rw [← hgs, gcores_filter]
          by_cases hcce : (GSt.cc g).isEmpty
          · rw [if_pos hcce]
            have hccnil : GSt.cc g = [] := List.isEmpty_iff.mp hcce
            unfold GSt.cc at hccnil
            have hpnil := (List.append_eq_nil.mp hccnil).2
            rw [hpnil] at hcons
            simpa [gcores] using hcons
          · rw [if_neg hcce, gcores_append]
            have : gcores [(⟨g.s0, g.pieces, g.stack⟩ : GChunk)]
                = g.pieces.flatten := by
              simp [gcores, GChunk.core]
            rw [this]
            simpa [gcores] using hcons
        · rw [hpt] at hg; cases hg
        · rw [hpt] at hg; cases hg
    · rw [hg] at h; cases h
    · rw [hg] at h; cases h

theorem C2_content_preservation_witness :
    ∃ (nh : Str) (gs : List GChunk),
      normalize_html "aaaa bbbb cccc".data = some nh
        ∧ split_coreG nh 6 30 = .ok gs
        ∧ ["aaaa ".data, "bbbb ".data, "cccc".data] = gs.map GChunk.proj
        ∧ (gs.map GChunk.core).flatten = nh :=
  C2_content_preservation "aaaa bbbb cccc".data 6 30
    ["aaaa ".data, "bbbb ".data, "cccc".data] (by decide)

theorem pySliceTo_ne_nil {s : Str} {k : Int} (hk : 0 < k) (hs : s ≠ []) :
    pySliceTo s k ≠ [] := by
  unfold pySliceTo
  rw [if_pos (by omega : (0 : Int) ≤ k)]
  intro hnil
  have h1 := congrArg List.length hnil
  rw [List.length_take, List.length_nil] at h1
  have h2 : 0 < s.length := List.length_pos.mpr hs
  omega

theorem flatten_ne_nil {l : List Str} (h : l ≠ []) (hall : ∀ p ∈ l, p ≠ []) :
    l.flatten ≠ [] := by
  cases l with
  | nil => exact absurd rfl h
  | cons p t =>
    rw [List.flatten_cons]
    intro heq
    exact hall p (List.mem_cons_self _ _) (List.append_eq_nil.mp heq).1

theorem tlCandidate_length_lt (mc : Int) (stack : List (Str × Str))
    (cc text : Str) (htext : text ≠ [])
    (hnfit : ¬((text.length : Int) ≤ tlAvailable mc stack cc)) :
    (tlCandidate mc stack cc text).length < text.length := by
  have hlen : 0 < text.length := List.length_pos.mpr htext
  unfold tlCandidate pySliceTo
  by_cases hk : 0 ≤ tlAvailable mc stack cc
  · rw [if_pos hk, List.length_take]
    have h1 := Int.toNat_of_nonneg hk
    omega
  · rw [if_neg hk, List.length_take]
    omega

theorem tlSplitIdx_le_candidate (mc : Int) (stack : List (Str × Str))
    (cc text : Str)
    (hnfit : ¬((text.length : Int) ≤ tlAvailable mc stack cc))
    (hpos : 0 < tlSplitIdx mc stack cc text) :
    tlSplitIdx mc stack cc text ≤ ((tlCandidate mc stack cc text).length : Int)
    := by
  unfold tlSplitIdx
  unfold tlSplitIdx at hpos
  by_cases hsi : (if pyRFind '\n' (tlCandidate mc stack cc text) = -1
      then pyRFind ' ' (tlCandidate mc stack cc text)
      else pyRFind '\n' (tlCandidate mc stack cc text)) = -1
  · rw [if_pos hsi] at hpos ⊢
    split_ifs at hpos ⊢ with hdef
    · omega
    · have hk : 0 ≤ tlAvailable mc stack cc := by omega
      unfold tlCandidate pySliceTo
      rw [if_pos hk, List.length_take]
      have h1 := Int.toNat_of_nonneg hk
      have h2 : ¬(text.length : Int) ≤ tlAvailable mc stack cc := hnfit
      push_cast
      omega
  · rw [if_neg hsi] at hpos ⊢
    have hlt : (if pyRFind '\n' (tlCandidate mc stack cc text) = -1
        then pyRFind ' ' (tlCandidate mc stack cc text)
        else pyRFind '\n' (tlCandidate mc stack cc text))
        < ((tlCandidate mc stack cc text).length : Int) := by
      split_ifs
      · exact pyRFind_lt_length ' ' _
      · exact pyRFind_lt_length '\n' _
    omega

/-- In a non-fitting iteration, the remaining text is never exhausted. -/
theorem tlText2_ne_nil (mc : Int) (stack : List (Str × Str)) (cc text : Str)
    (htext : text ≠ [])
    (hnfit : ¬((text.length : Int) ≤ tlAvailable mc stack cc)) :
    tlText2 mc stack cc text ≠ [] := by
  unfold tlText2
  by_cases hpos : 0 < tlSplitIdx mc stack cc text
  · rw [if_pos hpos]
    have h1 := tlSplitIdx_le_candidate mc stack cc text hnfit hpos
    have h2 := tlCandidate_length_lt mc stack cc text htext hnfit
    unfold pySliceFrom
    rw [if_pos (by omega : (0 : Int) ≤ tlSplitIdx mc stack cc text)]
    intro hnil
    have h3 := congrArg List.length hnil
    rw [List.length_drop, List.length_nil] at h3
    have h5 : (tlSplitIdx mc stack cc text).toNat
        ≤ (tlCandidate mc stack cc text).length := by omega
    omega
  · rw [if_neg hpos]
    exact htext

/-- When the tag overhead fills the whole budget and the current chunk is the
bare reopened skeleton, the ghost text loop repeats its state forever. -/
theorem textLoopG_stuck (mc : Int) (stack : List (Str × Str)) (text : Str)
    (hne : ¬text.isEmpty = true)
    (hnfit : ¬((text.length : Int)
      ≤ tlAvailable mc stack (get_opening_str stack ++ List.flatten [])))
    (h0 : ¬(0 < tlSplitIdx mc stack
      (get_opening_str stack ++ List.flatten []) text)) :
    ∀ (fuel : Nat) (gchunks : List GChunk),
      textLoopG mc stack fuel gchunks stack [] text = none := by
  intro fuel
  induction fuel with
  | zero => intro gchunks; rfl
  | succ n ih =>
    intro gchunks
    rw [textLoopG]
    rw [if_neg hne, if_neg hnfit]
    rw [show tlText2 mc stack (get_opening_str stack ++ List.flatten []) text
      = text from by unfold tlText2; rw [if_neg h0]]
    rw [show (([] : List Str) ++
        (if 0 < tlSplitIdx mc stack
              (get_opening_str stack ++ List.flatten []) text
         then [pySliceTo text
           (tlSplitIdx mc stack (get_opening_str stack ++ List.flatten [])
             text)]
         else [])) = ([] : List Str) from by rw [if_neg h0]; rfl]
    exact ih _

/-- A chunk emitted by the ghost text loop always carries real content (or,
degenerately, projects to the empty string), and the loop exits with a
non-empty current-piece list. -/
theorem textLoopG_coresOk (mc : Int) (stack : List (Str × Str)) :
    ∀ (fuel : Nat) (gchunks : List GChunk) (s0 : List (Str × Str))
      (pieces : List Str) (text : Str)
      (res : List GChunk × List (Str × Str) × List Str),
      textLoopG mc stack fuel gchunks s0 pieces text = some res →
      text ≠ [] →
      (∀ gc ∈ gchunks, gc.core ≠ [] ∨ gc.proj = []) →
      (∀ p ∈ pieces, p ≠ []) →
      (pieces = [] → s0 = stack) →
      (∀ gc ∈ res.1, gc.core ≠ [] ∨ gc.proj = []) ∧
        (∀ p ∈ res.2.2, p ≠ []) ∧ res.2.2 ≠ [] := by
  intro fuel
  induction fuel with
  | zero => intro gchunks s0 pieces text res h; intro _ _ _ _; cases h
  | succ n ih =>
    intro gchunks s0 pieces text res h htext hgch hall hL
    rw [textLoopG] at h
    rw [if_neg (by simpa using htext : ¬text.isEmpty = true)] at h
    by_cases hfit : (text.length : Int)
        ≤ tlAvailable mc stack (get_opening_str s0 ++ pieces.flatten)
    · rw [if_pos hfit] at h
      have hres := Option.some.inj h
      rw [← hres]
      refine ⟨hgch, ?_, by simp⟩
      intro p hp
      rcases List.mem_append.mp hp with hold | hnew
      · exact hall p hold
      · rw [List.mem_singleton] at hnew
        rw [hnew]; exact htext
    · rw [if_neg hfit] at h
      by_cases hpos : 0 < tlSplitIdx mc stack
          (get_opening_str s0 ++ pieces.flatten) text
      · refine ih _ _ _ _ _ h
          (tlText2_ne_nil mc stack _ text htext hfit) ?_ (by intro p hp; cases hp)
          (by intro _; rfl)
        intro gc hgc
        rcases List.mem_append.mp hgc with hold | hnew
        · exact hgch gc hold
        · rw [List.mem_singleton] at hnew
          rw [hnew]
          left
          show List.flatten (pieces ++ _) ≠ []
          rw [if_pos hpos, List.flatten_append]
          intro heq
          have h2 := (List.append_eq_nil.mp heq).2
          rw [List.flatten_cons, List.flatten_nil, List.append_nil] at h2
          exact pySliceTo_ne_nil hpos htext h2
      · by_cases hpn : pieces = []
        · exfalso
          have hs0 := hL hpn
          rw [hpn, hs0] at h
          rw [hpn, hs0] at hfit hpos
          rw [show (([] : List Str) ++
              (if 0 < tlSplitIdx mc stack
                    (get_opening_str stack ++ List.flatten []) text
               then [pySliceTo text (tlSplitIdx mc stack
                 (get_opening_str stack ++ List.flatten []) text)]
               else [])) = ([] : List Str) from by rw [if_neg hpos]; rfl] at h
          rw [show tlText2 mc stack (get_opening_str stack ++ List.flatten [])
              text = text from by unfold tlText2; rw [if_neg hpos]] at h
          rw [textLoopG_stuck mc stack text (by simpa using htext) hfit hpos
            n _] at h
          cases h
        · refine ih _ _ _ _ _ h
            (tlText2_ne_nil mc stack _ text htext hfit) ?_
            (by intro p hp; cases hp) (by intro _; rfl)
          intro gc hgc
          rcases List.mem_append.mp hgc with hold | hnew
          · exact hgch gc hold
          · rw [List.mem_singleton] at hnew
            rw [hnew]
            left
            show List.flatten (pieces ++ _) ≠ []
            rw [if_neg hpos, List.append_nil]
            exact flatten_ne_nil hpn hall

theorem procStepG_tag (mc : Int) (fuel : Nat) (token : Str)
    (gchunks : List GChunk) (s0 stack : List (Str × Str)) (pieces : List Str)
    (hlt : token.head? = some '<') :
    procStepG mc fuel token ⟨gchunks, s0, pieces, stack⟩
      = match extract_tag_info token with
        | none => Res.exn
        | some (tagName, isClosing, isVoid) =>
          Res.ok
            ⟨if decide (mc < (((get_opening_str s0 ++ pieces.flatten)
                  : Str).length : Int)
                + (token.length : Int)
                + ((get_closing_str stack).length : Int))
              then gchunks ++ [⟨s0, pieces, stack⟩] else gchunks,
             if decide (mc < (((get_opening_str s0 ++ pieces.flatten)
                  : Str).length : Int)
                + (token.length : Int)
                + ((get_closing_str stack).length : Int))
              then stack else s0,
             (if decide (mc < (((get_opening_str s0 ++ pieces.flatten)
                  : Str).length : Int)
                + (token.length : Int)
                + ((get_closing_str stack).length : Int))
              then [] else pieces) ++ [token],
             if tagName ∈ ALLOWED_TAGS then
               if isClosing then popTag stack tagName
               else if !isVoid then stack ++ [(tagName, token)]
               else stack
             else stack⟩ := by
  unfold procStepG
  rw [if_pos hlt]
  rfl

theorem procStepG_text (mc : Int) (fuel : Nat) (token : Str)
    (gchunks : List GChunk) (s0 stack : List (Str × Str)) (pieces : List Str)
    (hlt : ¬token.head? = some '<') :
    procStepG mc fuel token ⟨gchunks, s0, pieces, stack⟩
      = match textLoopG mc stack fuel gchunks s0 pieces token with
        | none => Res.fuelOut
        | some r => Res.ok ⟨r.1, r.2.1, r.2.2, stack⟩ := by
  unfold procStepG
  rw [if_neg hlt]

/-- Main-loop invariant for C8: every finalized ghost chunk either has real
content or projects to the empty string, the current pieces are non-empty
strings, and an empty current chunk only occurs in the initial state. -/
theorem procTokensG_coresOk (mc : Int) (fuel : Nat) :
    ∀ (tokens : List Str) (gchunks : List GChunk)
      (s0 stack : List (Str × Str)) (pieces : List Str) (g2 : GSt),
      procTokensG mc fuel tokens ⟨gchunks, s0, pieces, stack⟩ = .ok g2 →
      (∀ gc ∈ gchunks, gc.core ≠ [] ∨ gc.proj = []) →
      (∀ p ∈ pieces, p ≠ []) →
      (pieces = [] → s0 = [] ∧ stack = []) →
      (∀ gc ∈ g2.gchunks, gc.core ≠ [] ∨ gc.proj = []) ∧
        (∀ p ∈ g2.pieces, p ≠ []) ∧
        (g2.pieces = [] → g2.s0 = [] ∧ g2.stack = []) := by
  intro tokens
  induction tokens with
  | nil =>
    intro gchunks s0 stack pieces g2 h hgch hall hK
    have := Res.ok.inj h
    rw [← this]
    exact ⟨hgch, hall, hK⟩
  | cons token ts ih =>
    intro gchunks s0 stack pieces g2 h hgch hall hK
    by_cases hemp : token.isEmpty
    · rw [procTokensG, if_pos hemp] at h
      exact ih gchunks s0 stack pieces g2 h hgch hall hK
    · have htok : token ≠ [] := by simpa using hemp
      rw [procTokensG, if_neg hemp] at h
      by_cases hlt : token.head? = some '<'
      · rw [procStepG_tag mc fuel token gchunks s0 stack pieces hlt] at h
        rcases hex : extract_tag_info token with _ | info
        · rw [hex] at h; cases h
        · obtain ⟨tagName, isClosing, isVoid⟩ := info
          rw [hex] at h
          apply ih _ _ _ _ _ h
          · intro gc hgc
            split_ifs at hgc with hover
            · rcases List.mem_append.mp hgc with hold | hnew
              · exact hgch gc hold
              · rw [List.mem_singleton] at hnew
                rw [hnew]
                by_cases hpn : pieces = []
                · right
                  obtain ⟨hs0, hstk⟩ := hK hpn
                  show get_opening_str s0 ++ _ ++ get_closing_str stack = []
                  rw [hpn, hs0, hstk]
                  rfl
                · left
                  exact flatten_ne_nil hpn hall
            · exact hgch gc hgc
          · intro p hp
            rcases List.mem_append.mp hp with hold | hnew
            · split_ifs at hold with hover
              · cases hold
              · exact hall p hold
            · rw [List.mem_singleton] at hnew
              rw [hnew]; exact htok
          · intro hpn
            simp at hpn
      · rw [procStepG_text mc fuel token gchunks s0 stack pieces hlt] at h
        rcases htl : textLoopG mc stack fuel gchunks s0 pieces token
            with _ | r
        · rw [htl] at h; cases h
        · rw [htl] at h
          have hres := textLoopG_coresOk mc stack fuel gchunks s0 pieces
            token r htl htok hgch hall
            (by intro hpn; rw [(hK hpn).1, (hK hpn).2])
          exact ih _ _ _ _ _ h hres.1 hres.2.1
            (fun hpn => absurd hpn hres.2.2)

/-- C8 is false as stated: for the empty input (which the claim explicitly
includes), the splitter returns the single empty chunk `[""]`, because the
small-input fast path bypasses the empty-chunk filter. -/
theorem C8_counterexample :
    split_html_message [] 5 0 = .ok [[]] ∧ ([] : Str) ∈ [([] : Str)] := by
  exact ⟨by decide, by decide⟩

/-- C8 (amended): when the normalized input is longer than `max_chars` (so the
real splitting path runs), no returned chunk is empty and no returned chunk
consists solely of its reopened-tag skeleton: the ghost run decomposes every
returned chunk as `opening ++ core ++ closing` with a non-empty core of real
content.  (When the normalized input fits, the single returned chunk is the
input itself, which is empty for empty input — see `C8_counterexample`.) -/
theorem C8_no_empty_amended (html : Str) (mc : Int) (fuel : Nat)
    (cs : List Str) (nh : Str) (hn : normalize_html html = some nh)
    (hbig : ¬((nh.length : Int) ≤ mc))
    (h : split_html_message html mc fuel = .ok cs) :
    (∀ c ∈ cs, c ≠ []) ∧
      ∃ gs : List GChunk, split_coreG nh mc fuel = .ok gs
        ∧ cs = gs.map GChunk.proj
        ∧ ∀ gc ∈ gs, gc.core ≠ [] ∧ gc.proj ≠ [] := by
  rw [split_of_norm hn, split_coreG_erase] at h
  rcases hg : split_coreG nh mc fuel with gs | _ | _
  · rw [hg] at h
    simp only [Res.mapR] at h
    have hcs := (Res.ok.inj h).symm
    have hgood : ∀ gc ∈ gs, gc.core ≠ [] ∧ gc.proj ≠ [] := by
      rw [split_coreG, if_neg hbig] at hg
      rcases hpt : procTokensG mc fuel (tokenize nh) ⟨[], [], [], []⟩
          with g | _ | _
      · rw [hpt] at hg
        obtain ⟨hemitted, hallp, hKfin⟩ := procTokensG_coresOk mc fuel
          (tokenize nh) [] [] [] [] g hpt (by intro gc hgc; cases hgc)
          (by intro p hp; cases hp) (by intro _; exact ⟨rfl, rfl⟩)
        have hgs := Res.ok.inj hg
        intro gc hgc
        rw [← hgs] at hgc
        have hmem := (List.mem_filter.mp hgc).1
        have hpred := (List.mem_filter.mp hgc).2
        have hproj : gc.proj ≠ [] := by
          intro hnil
          rw [Bool.not_eq_true'] at hpred
          simp only [Bool.or_eq_false_iff, decide_eq_false_iff_not] at hpred
          exact hpred.1 hnil
        refine ⟨?_, hproj⟩
        split_ifs at hmem with hcce
        · rcases hemitted gc hmem with hcore | hnil
          · exact hcore
          · exact absurd hnil hproj
        · rcases List.mem_append.mp hmem with hold | hnew
          · rcases hemitted gc hold with hcore | hnil
            · exact hcore
            · exact absurd hnil hproj
          · rw [List.mem_singleton] at hnew
            rw [hnew]
            show g.pieces.flatten ≠ []
            by_cases hpn : g.pieces = []
            · exfalso
              obtain ⟨hs0, hstk⟩ := hKfin hpn
              apply hcce
              show (GSt.cc g).isEmpty = true
              unfold GSt.cc
              rw [hpn, hs0]
              rfl
            · exact flatten_ne_nil hpn hallp
      · rw [hpt] at hg; cases hg
      · rw [hpt] at hg; cases hg
    refine ⟨?_, gs, rfl, hcs, hgood⟩
    intro c hc
    rw [hcs] at hc
    rcases List.mem_map.mp hc with ⟨gc, hgcm, hgce⟩
    rw [← hgce]
    exact (hgood gc hgcm).2
  · rw [hg] at h; cases h
  · rw [hg] at h; cases h

theorem C8_no_empty_amended_witness :
    (∀ c ∈ ["aaaa ".data, "bbbb ".data, "cccc".data], c ≠ []) ∧
      ∃ gs : List GChunk, split_coreG "aaaa bbbb cccc".data 6 30 = .ok gs
        ∧ ["aaaa ".data, "bbbb ".data, "cccc".data] = gs.map GChunk.proj
        ∧ ∀ gc ∈ gs, gc.core ≠ [] ∧ gc.proj ≠ [] :=
  C8_no_empty_amended "aaaa bbbb cccc".data 6 30
    ["aaaa ".data, "bbbb ".data, "cccc".data] "aaaa bbbb cccc".data
    (by decide) (by decide) (by decide)

/-- A well-formed tag token: `<`, a non-empty interior free of `>`, then `>`
(the shape every tag token produced by the regex split has). -/
def isWfTag (tok : Str) : Bool :=
  decide (tok.head? = some '<') && decide (3 ≤ tok.length)
    && decide (tok.getLast? = some '>')
    && !(decide ('>' ∈ (tok.drop 1).dropLast))

/-- A token whose presence in a chunk re-parses transparently: a well-formed
tag when it starts with `<`, otherwise text containing no `<` at all. -/
def cleanTok (tok : Str) : Bool :=
  if tok.head? = some '<' then isWfTag tok else !(decide ('<' ∈ tok))

/-- A chunk constituent that re-parses as itself: a well-formed tag or
`<`-free text. -/
def segOk (s : Str) : Bool := isWfTag s || !(decide ('<' ∈ s))

/-- 1 when the token is an allow-listed, opening, non-void tag named `t`
(exactly the tags the splitter pushes on its stack), per `extract_tag_info`. -/
def opensTok (t : Str) (tok : Str) : Nat :=
  if tok.head? = some '<' then
    match extract_tag_info tok with
    | some (name, isClosing, isVoid) =>
      if name = t ∧ t ∈ ALLOWED_TAGS ∧ isClosing = false ∧ isVoid = false
      then 1 else 0
    | none => 0
  else 0

/-- 1 when the token is an allow-listed closing tag named `t`. -/
def closesTok (t : Str) (tok : Str) : Nat :=
  if tok.head? = some '<' then
    match extract_tag_info tok with
    | some (name, isClosing, _) =>
      if name = t ∧ t ∈ ALLOWED_TAGS ∧ isClosing = true then 1 else 0
    | none => 0
  else 0

/-- Opening-tag count of a token list for the allow-listed name `t`. -/
def opensList (t : Str) (toks : List Str) : Nat := (toks.map (opensTok t)).sum

/-- Closing-tag count of a token list for the allow-listed name `t`. -/
def closesList (t : Str) (toks : List Str) : Nat := (toks.map (closesTok t)).sum

/-- Opening-tag count of a string parsed on its own. -/
def opensIn (t : Str) (s : Str) : Nat := opensList t (tokenize s)

/-- Closing-tag count of a string parsed on its own. -/
def closesIn (t : Str) (s : Str) : Nat := closesList t (tokenize s)

/-- Number of stack entries carrying the name `t`. -/
def stackCount (t : Str) (stack : List (Str × Str)) : Nat :=
  (stack.filter fun e => decide (e.1 = t)).length

/-- Every prefix of the token stream has, per allow-listed name, at least as
many opening as closing tags (no closing tag before its opener). -/
def BalancedPrefixes (toks : List Str) : Prop :=
  ∀ n ≤ toks.length, ∀ t ∈ ALLOWED_TAGS,
    closesList t (toks.take n) ≤ opensList t (toks.take n)

theorem opensTok_head {t tok : Str} (h : ¬tok.head? = some '<') :
    opensTok t tok = 0 := by
  unfold opensTok; rw [if_neg h]

theorem closesTok_head {t tok : Str} (h : ¬tok.head? = some '<') :
    closesTok t tok = 0 := by
  unfold closesTok; rw [if_neg h]

theorem head_ne_lt_of_not_mem {s : Str} (h : '<' ∉ s) :
    ¬s.head? = some '<' := by
  cases s with
  | nil => simp
  | cons c cs =>
    simp only [List.head?_cons, Option.some.injEq]
    intro hc
    exact h (by rw [hc]; exact List.mem_cons_self _ _)

theorem opensTok_not_mem {t tok : Str} (h : '<' ∉ tok) : opensTok t tok = 0 :=
  opensTok_head (head_ne_lt_of_not_mem h)

theorem closesTok_not_mem {t tok : Str} (h : '<' ∉ tok) : closesTok t tok = 0 :=
  closesTok_head (head_ne_lt_of_not_mem h)

theorem opensList_append (t : Str) (a b : List Str) :
    opensList t (a ++ b) = opensList t a + opensList t b := by
  unfold opensList; rw [List.map_append, List.sum_append]

theorem closesList_append (t : Str) (a b : List Str) :
    closesList t (a ++ b) = closesList t a + closesList t b := by
  unfold closesList; rw [List.map_append, List.sum_append]

theorem opensList_cons (t x : Str) (xs : List Str) :
    opensList t (x :: xs) = opensTok t x + opensList t xs := by
  unfold opensList; rw [List.map_cons, List.sum_cons]

theorem closesList_cons (t x : Str) (xs : List Str) :
    closesList t (x :: xs) = closesTok t x + closesList t xs := by
  unfold closesList; rw [List.map_cons, List.sum_cons]

theorem opensList_single (t x : Str) : opensList t [x] = opensTok t x := by
  rw [opensList_cons]; rfl

theorem closesList_single (t x : Str) : closesList t [x] = closesTok t x := by
  rw [closesList_cons]; rfl

theorem stackCount_cons (t : Str) (e : Str × Str) (l : List (Str × Str)) :
    stackCount t (e :: l) = (if e.1 = t then 1 else 0) + stackCount t l := by
  unfold stackCount
  by_cases he : e.1 = t
  · rw [List.filter_cons_of_pos (by simpa using he), if_pos he,
      List.length_cons]
    omega
  · rw [List.filter_cons_of_neg (by simpa using he), if_neg he]
    omega

theorem stackCount_append (t : Str) (a b : List (Str × Str)) :
    stackCount t (a ++ b) = stackCount t a + stackCount t b := by
  unfold stackCount; rw [List.filter_append, List.length_append]

theorem stackCount_reverse (t : Str) (l : List (Str × Str)) :
    stackCount t l.reverse = stackCount t l := by
  unfold stackCount; rw [List.filter_reverse, List.length_reverse]

theorem exists_of_stackCount_pos {name : Str} {l : List (Str × Str)}
    (h : 0 < stackCount name l) : ∃ e ∈ l, e.1 = name := by
  unfold stackCount at h
  rcases hl : l.filter (fun e => decide (e.1 = name)) with _ | ⟨e, rest⟩
  · rw [hl] at h; simp at h
  · have he : e ∈ l.filter (fun e => decide (e.1 = name)) := by
      rw [hl]; exact List.mem_cons_self _ _
    have hm := List.mem_filter.mp he
    exact ⟨e, hm.1, by simpa using hm.2⟩

theorem removeFirst_count (name t : Str) :
    ∀ l : List (Str × Str), (∃ e ∈ l, e.1 = name) →
      stackCount t (removeFirst name l) + (if name = t then 1 else 0)
        = stackCount t l := by
  intro l
  induction l with
  | nil => intro h; obtain ⟨e, he, _⟩ := h; cases he
  | cons e rest ih =>
    intro h
    rw [removeFirst]
    by_cases he : e.1 = name
    · rw [if_pos he, stackCount_cons, he]
      exact Nat.add_comm _ _
    · rw [if_neg he, stackCount_cons, stackCount_cons]
      obtain ⟨e2, he2, hn2⟩ := h
      rcases List.mem_cons.mp he2 with heq | hmem
      · exact absurd (by rw [← heq]; exact hn2) he
      · have := ih ⟨e2, hmem, hn2⟩
        omega

theorem popTag_count (stack : List (Str × Str)) (name t : Str)
    (h : 0 < stackCount name stack) :
    stackCount t (popTag stack name) + (if name = t then 1 else 0)
      = stackCount t stack := by
  unfold popTag
  rw [stackCount_reverse]
  rw [← stackCount_reverse t stack]
  apply removeFirst_count
  obtain ⟨e, he, hn⟩ := exists_of_stackCount_pos h
  exact ⟨e, List.mem_reverse.mpr he, hn⟩

theorem tag_counts {token tagName : Str} {isC isV : Bool}
    (hh : token.head? = some '<')
    (hex : extract_tag_info token = some (tagName, isC, isV)) (t : Str) :
    opensTok t token
      = (if tagName = t ∧ t ∈ ALLOWED_TAGS ∧ isC = false ∧ isV = false
         then 1 else 0)
    ∧ closesTok t token
      = (if tagName = t ∧ t ∈ ALLOWED_TAGS ∧ isC = true then 1 else 0) := by
  constructor
  · unfold opensTok
    rw [if_pos hh, hex]
  · unfold closesTok
    rw [if_pos hh, hex]

theorem counts_closing {token tagName : Str} {isV : Bool}
    (hh : token.head? = some '<')
    (hex : extract_tag_info token = some (tagName, true, isV))
    (hal : tagName ∈ ALLOWED_TAGS) (t : Str) :
    opensTok t token = 0
      ∧ closesTok t token = (if tagName = t then 1 else 0) := by
  obtain ⟨ho, hc⟩ := tag_counts hh hex t
  constructor
  · rw [ho, if_neg]
    intro h
    exact Bool.noConfusion h.2.2.1
  · rw [hc]
    by_cases ht : tagName = t
    · rw [if_pos ⟨ht, by rw [← ht]; exact hal, rfl⟩, if_pos ht]
    · rw [if_neg (fun h => ht h.1), if_neg ht]

theorem counts_opening {token tagName : Str}
    (hh : token.head? = some '<')
    (hex : extract_tag_info token = some (tagName, false, false))
    (hal : tagName ∈ ALLOWED_TAGS) (t : Str) :
    opensTok t token = (if tagName = t then 1 else 0)
      ∧ closesTok t token = 0 := by
  obtain ⟨ho, hc⟩ := tag_counts hh hex t
  constructor
  · rw [ho]
    by_cases ht : tagName = t
    · rw [if_pos ⟨ht, by rw [← ht]; exact hal, rfl, rfl⟩, if_pos ht]
    · rw [if_neg (fun h => ht h.1), if_neg ht]
  · rw [hc, if_neg]
    intro h
    exact Bool.false_ne_true h.2.2

theorem counts_zero {token tagName : Str} {isC isV : Bool}
    (hh : token.head? = some '<')
    (hex : extract_tag_info token = some (tagName, isC, isV))
    (hz : tagName ∉ ALLOWED_TAGS ∨ (isC = false ∧ isV = true)) (t : Str) :
    opensTok t token = 0 ∧ closesTok t token = 0 := by
  obtain ⟨ho, hc⟩ := tag_counts hh hex t
  rcases hz with hna | ⟨hc0, hv1⟩
  · constructor
    · rw [ho, if_neg]
      intro h
      exact hna (by rw [h.1]; exact h.2.1)
    · rw [hc, if_neg]
      intro h
      exact hna (by rw [h.1]; exact h.2.1)
  · constructor
    · rw [ho, if_neg]
      intro h
      rw [hv1] at h
      exact Bool.noConfusion h.2.2.2
    · rw [hc, if_neg]
      intro h
      rw [hc0] at h
      exact Bool.false_ne_true h.2.2

theorem counts_not_allowed {t : Str} (ht : t ∉ ALLOWED_TAGS) (tok : Str) :
    opensTok t tok = 0 ∧ closesTok t tok = 0 := by
  by_cases hh : tok.head? = some '<'
  · rcases hex : extract_tag_info tok with _ | ⟨name, isC, isV⟩
    · constructor
      · unfold opensTok
        rw [if_pos hh, hex]
      · unfold closesTok
        rw [if_pos hh, hex]
    · obtain ⟨ho, hc⟩ := tag_counts hh hex t
      constructor
      · rw [ho, if_neg]
        intro h
        exact ht h.2.1
      · rw [hc, if_neg]
        intro h
        exact ht h.2.1
  · exact ⟨opensTok_head hh, closesTok_head hh⟩

theorem counts_list_not_allowed {t : Str} (ht : t ∉ ALLOWED_TAGS) :
    ∀ toks : List Str, opensList t toks = 0 ∧ closesList t toks = 0 := by
  intro toks
  induction toks with
  | nil => exact ⟨rfl, rfl⟩
  | cons x xs ih =>
    have hx := counts_not_allowed ht x
    constructor
    · rw [opensList_cons, hx.1, ih.1]
    · rw [closesList_cons, hx.2, ih.2]

/-- A well-formed stack entry: its token is a well-formed tag extracting to
an opening, non-void, allow-listed tag of the entry's name. -/
def EntryOk (e : Str × Str) : Prop :=
  extract_tag_info e.2 = some (e.1, false, false) ∧ e.1 ∈ ALLOWED_TAGS
    ∧ isWfTag e.2 = true

def EntriesOk (stack : List (Str × Str)) : Prop := ∀ e ∈ stack, EntryOk e

theorem isWfTag_head {tok : Str} (h : isWfTag tok = true) :
    tok.head? = some '<' := by
  unfold isWfTag at h
  simp only [Bool.and_eq_true, decide_eq_true_eq] at h
  exact h.1.1.1

theorem entry_counts {e : Str × Str} (he : EntryOk e) (t : Str) :
    opensTok t e.2 = (if e.1 = t then 1 else 0) ∧ closesTok t e.2 = 0 :=
  counts_opening (isWfTag_head he.2.2) he.1 he.2.1 t

theorem closingTag_spec : ∀ t ∈ ALLOWED_TAGS,
    extract_tag_info ('<' :: '/' :: (t ++ ['>'])) = some (t, true, false)
      ∧ isWfTag ('<' :: '/' :: (t ++ ['>'])) = true := by decide

theorem closingTag_counts {name : Str} (hal : name ∈ ALLOWED_TAGS) (t : Str) :
    opensTok t ('<' :: '/' :: (name ++ ['>'])) = 0
      ∧ closesTok t ('<' :: '/' :: (name ++ ['>']))
        = (if name = t then 1 else 0) := by
  obtain ⟨hex, hwf⟩ := closingTag_spec name hal
  exact counts_closing (isWfTag_head hwf) hex hal t

theorem openingSeq_counts (t : Str) :
    ∀ stack : List (Str × Str), EntriesOk stack →
      opensList t (stack.map fun e => e.2) = stackCount t stack
        ∧ closesList t (stack.map fun e => e.2) = 0 := by
  intro stack
  induction stack with
  | nil => exact fun _ => ⟨rfl, rfl⟩
  | cons e rest ih =>
    intro h
    have he := h e (List.mem_cons_self _ _)
    have hr := ih (fun x hx => h x (List.mem_cons_of_mem _ hx))
    rw [List.map_cons]
    constructor
    · rw [opensList_cons, (entry_counts he t).1, hr.1, stackCount_cons]
    · rw [closesList_cons, (entry_counts he t).2, hr.2]

theorem closingSeq_counts (t : Str) :
    ∀ L : List (Str × Str), (∀ e ∈ L, e.1 ∈ ALLOWED_TAGS) →
      opensList t (L.map fun e => '<' :: '/' :: (e.1 ++ ['>'])) = 0
        ∧ closesList t (L.map fun e => '<' :: '/' :: (e.1 ++ ['>']))
          = stackCount t L := by
  intro L
  induction L with
  | nil => exact fun _ => ⟨rfl, rfl⟩
  | cons e rest ih =>
    intro h
    have he := h e (List.mem_cons_self _ _)
    have hr := ih (fun x hx => h x (List.mem_cons_of_mem _ hx))
    rw [List.map_cons]
    constructor
    · rw [opensList_cons, (closingTag_counts he t).1, hr.1]
    · rw [closesList_cons, (closingTag_counts he t).2, hr.2, stackCount_cons]

theorem isWfTag_decomp {tok : Str} (h : isWfTag tok = true) :
    ∃ a : Str, tok = '<' :: (a ++ ['>']) ∧ a ≠ [] ∧ '>' ∉ a := by
  unfold isWfTag at h
  simp only [Bool.and_eq_true, decide_eq_true_eq, Bool.not_eq_true',
    decide_eq_false_iff_not] at h
  obtain ⟨⟨⟨hh, hlen⟩, hlast⟩, hint⟩ := h
  have h1 : tok = '<' :: tok.tail := head?_eq_cons hh
  have h2 : tok.tail ≠ [] := by
    intro he
    rw [h1, he] at hlen
    simp at hlen
  rcases List.eq_nil_or_concat tok.tail with hnil | ⟨init, lastc, hconc⟩
  · exact absurd hnil h2
  rw [List.concat_eq_append] at hconc
  have hlast2 : lastc = '>' := by
    rw [h1, hconc,
      show ('<' :: (init ++ [lastc])) = ('<' :: init) ++ [lastc] from rfl,
      List.getLast?_concat] at hlast
    exact Option.some.inj hlast
  have hdl : (tok.drop 1).dropLast = init := by
    rw [h1, hconc]
    show (init ++ [lastc]).dropLast = init
    simp
  have hinit : init ≠ [] := by
    intro he
    rw [h1, hconc, he] at hlen
    simp at hlen
  rw [hdl] at hint
  exact ⟨init, by rw [h1, hconc, hlast2], hinit, hint⟩

theorem takeWhile_append_of_all (p : Char → Bool) :
    ∀ (a : Str), (∀ c ∈ a, p c = true) → ∀ {x : Char}, p x = false →
      ∀ (s : Str), (a ++ x :: s).takeWhile p = a := by
  intro a
  induction a with
  | nil =>
    intro _ x hx s
    show (x :: s).takeWhile p = []
    exact List.takeWhile_cons_of_neg (by rw [hx]; exact Bool.noConfusion)
  | cons c cs ih =>
    intro hall x hx s
    have hc := hall c (List.mem_cons_self _ _)
    show ((c :: (cs ++ x :: s)).takeWhile p) = c :: cs
    rw [List.takeWhile_cons_of_pos hc,
      ih (fun d hd => hall d (List.mem_cons_of_mem _ hd)) hx s]

theorem findTag_wf (a s : Str) (ha : a ≠ []) (hgt : '>' ∉ a) :
    findTag ('<' :: (a ++ '>' :: s)) = some ([], '<' :: (a ++ ['>']), s) := by
  have htw : (a ++ '>' :: s).takeWhile (· ≠ '>') = a :=
    takeWhile_append_of_all _ a
      (fun c hc => by
        simp only [decide_eq_true_eq]
        intro hce
        rw [hce] at hc
        exact hgt hc)
      (by simp) s
  rw [findTag]
  rw [if_pos rfl, htw]
  rw [if_neg (by simpa using ha)]
  rw [show (a ++ '>' :: s).drop a.length = '>' :: s from List.drop_left a _]
  show (if ('>' :: s).head? = some '>'
      then some (([] : Str), '<' :: (a ++ ['>']), ('>' :: s).tail) else none)
    = some ([], '<' :: (a ++ ['>']), s)
  rw [if_pos (show ('>' :: s).head? = some '>' from rfl)]
  rfl

theorem tokenize_wfTag_cons {w : Str} (hw : isWfTag w = true) (s : Str) :
    tokenize (w ++ s) = [] :: w :: tokenize s := by
  obtain ⟨a, hw2, ha, hgt⟩ := isWfTag_decomp hw
  subst hw2
  rw [show ('<' :: (a ++ ['>'])) ++ s = '<' :: (a ++ '>' :: s) from by simp,
    tokenize_eq, findTag_wf a s ha hgt]

theorem findTag_text_prepend : ∀ (txt : Str), '<' ∉ txt →
    ∀ s : Str, findTag (txt ++ s)
      = (findTag s).map (fun p => (txt ++ p.1, p.2.1, p.2.2)) := by
  intro txt
  induction txt with
  | nil =>
    intro _ s
    rw [List.nil_append]
    cases hf : findTag s with
    | none => rfl
    | some p => obtain ⟨p1, p2, p3⟩ := p; rfl
  | cons c cs ih =>
    intro ht s
    have hc : c ≠ '<' := by
      intro hce
      rw [hce] at ht
      exact ht (List.mem_cons_self _ _)
    have hcs : '<' ∉ cs := fun h => ht (List.mem_cons_of_mem _ h)
    show findTag (c :: (cs ++ s)) = _
    rw [findTag, if_neg hc, ih hcs s]
    cases hf : findTag s with
    | none => rfl
    | some p => obtain ⟨p1, p2, p3⟩ := p; rfl

theorem tokenize_text_prepend {txt : Str} (ht : '<' ∉ txt) (s : Str) :
    tokenize (txt ++ s) = (txt ++ (tokenize s).headI) :: (tokenize s).tail := by
  rw [tokenize_eq, findTag_text_prepend txt ht s]
  cases hf : findTag s with
  | none =>
    rw [show tokenize s = [s] from by rw [tokenize_eq, hf]]
    rfl
  | some p =>
    obtain ⟨pre2, tag, rest⟩ := p
    rw [show tokenize s = pre2 :: tag :: tokenize rest from by
      rw [tokenize_eq, hf]]
    rfl

theorem tokenize_ne_nil (s : Str) : tokenize s ≠ [] := by
  rw [tokenize_eq]
  cases hf : findTag s with
  | none => simp
  | some p => obtain ⟨p1, p2, p3⟩ := p; simp

theorem count_flatten_segs (f : Str → Nat)
    (hf : ∀ tok : Str, ¬tok.head? = some '<' → f tok = 0) :
    ∀ segs : List Str, (∀ sg ∈ segs, segOk sg = true) →
      ((tokenize segs.flatten).map f).sum = (segs.map f).sum
        ∧ '<' ∉ (tokenize segs.flatten).headI := by
  intro segs
  induction segs with
  | nil =>
    intro _
    rw [show (([] : List Str)).flatten = ([] : Str) from rfl,
      show tokenize ([] : Str) = [[]] from rfl]
    constructor
    · simp only [List.map_cons, List.map_nil, List.sum_cons, List.sum_nil]
      rw [hf [] (by simp)]
      omega
    · simp
  | cons sg rest ih =>
    intro hall
    have hsg := hall sg (List.mem_cons_self _ _)
    obtain ⟨ihs, ihh⟩ := ih (fun x hx => hall x (List.mem_cons_of_mem _ hx))
    rw [show (sg :: rest).flatten = sg ++ rest.flatten from rfl]
    unfold segOk at hsg
    rw [Bool.or_eq_true] at hsg
    rcases hsg with hwf | htxt
    · rw [tokenize_wfTag_cons hwf rest.flatten]
      constructor
      · simp only [List.map_cons, List.sum_cons]
        rw [hf [] (by simp), ihs]
        omega
      · simp
    · have hmem : '<' ∉ sg := by
        rw [Bool.not_eq_true', decide_eq_false_iff_not] at htxt
        exact htxt
      rw [tokenize_text_prepend hmem rest.flatten]
      rcases hT : tokenize rest.flatten with _ | ⟨h0, ttail⟩
      · exact absurd hT (tokenize_ne_nil _)
      · rw [hT] at ihs ihh
        have ihh2 : '<' ∉ h0 := by simpa using ihh
        constructor
        · simp only [List.headI_cons, List.tail_cons, List.map_cons,
            List.sum_cons] at ihs ⊢
          have hz1 : f (sg ++ h0) = 0 := hf _ (head_ne_lt_of_not_mem (by
            intro hm
            rcases List.mem_append.mp hm with hm1 | hm2
            · exact hmem hm1
            · exact ihh2 hm2))
          have hz2 : f sg = 0 := hf _ (head_ne_lt_of_not_mem hmem)
          have hz3 : f h0 = 0 := hf _ (head_ne_lt_of_not_mem ihh2)
          rw [hz1, hz2]
          rw [hz3] at ihs
          omega
        · simp only [List.headI_cons]
          intro hm
          rcases List.mem_append.mp hm with hm1 | hm2
          · exact hmem hm1
          · exact ihh2 hm2

theorem segs_counts (t : Str) (segs : List Str)
    (hall : ∀ sg ∈ segs, segOk sg = true) :
    opensIn t segs.flatten = opensList t segs
      ∧ closesIn t segs.flatten = closesList t segs :=
  ⟨(count_flatten_segs (opensTok t) (fun _ h => opensTok_head h) segs hall).1,
   (count_flatten_segs (closesTok t) (fun _ h => closesTok_head h) segs hall).1⟩

/-- Balance bookkeeping for a ghost chunk: the seed stack plus the opening
tags among the pieces match the end stack plus the closing tags among the
pieces, for every name; and all constituents re-parse as themselves. -/
def GChunkBal (gc : GChunk) : Prop :=
  (∀ t : Str, stackCount t gc.s0 + opensList t gc.pieces
    = stackCount t gc.e + closesList t gc.pieces)
  ∧ EntriesOk gc.s0 ∧ EntriesOk gc.e ∧ ∀ p ∈ gc.pieces, segOk p = true

theorem gchunk_balanced {gc : GChunk} (h : GChunkBal gc) (t : Str) :
    opensIn t gc.proj = closesIn t gc.proj := by
  obtain ⟨hbal, hs0, he, hp⟩ := h
  have hproj : gc.proj
      = ((gc.s0.map fun e => e.2) ++ gc.pieces
          ++ (gc.e.reverse.map fun e => '<' :: '/' :: (e.1 ++ ['>']))).flatten := by
    show get_opening_str gc.s0 ++ gc.pieces.flatten ++ get_closing_str gc.e = _
    rw [List.flatten_append, List.flatten_append]
    rfl
  have hallseg : ∀ sg ∈ (gc.s0.map fun e => e.2) ++ gc.pieces
      ++ (gc.e.reverse.map fun e => '<' :: '/' :: (e.1 ++ ['>'])),
      segOk sg = true := by
    intro sg hsg
    rcases List.mem_append.mp hsg with h1 | h2
    · rcases List.mem_append.mp h1 with h0 | hps
      · rcases List.mem_map.mp h0 with ⟨en, hen, he2⟩
        rw [← he2]
        unfold segOk
        rw [(hs0 en hen).2.2]
        rfl
      · exact hp sg hps
    · rcases List.mem_map.mp h2 with ⟨en, hen, he2⟩
      rw [← he2]
      unfold segOk
      rw [(closingTag_spec en.1 (he en (List.mem_reverse.mp hen)).2.1).2]
      rfl
  rw [hproj]
  obtain ⟨ho, hc⟩ := segs_counts t _ hallseg
  rw [ho, hc, opensList_append, opensList_append, closesList_append,
    closesList_append]
  have h1 := openingSeq_counts t gc.s0 hs0
  have h2 := closingSeq_counts t gc.e.reverse
    (fun en hen => (he en (List.mem_reverse.mp hen)).2.1)
  rw [h1.1, h1.2, h2.1, h2.2, stackCount_reverse]
  have := hbal t
  omega

theorem take_append_cons {α : Type} (pre : List α) (x : α) (ts : List α) :
    (pre ++ x :: ts).take (pre.length + 1) = pre ++ [x] := by
  induction pre with
  | nil => rfl
  | cons a rest ih =>
    show (a :: (rest ++ x :: ts)).take (rest.length + 1 + 1) = a :: (rest ++ [x])
    rw [List.take_succ_cons, ih]

theorem not_mem_pySliceTo {s : Str} {c : Char} (h : c ∉ s) (k : Int) :
    c ∉ pySliceTo s k := by
  unfold pySliceTo
  split_ifs with hk
  · exact fun hm => h (List.take_subset _ _ hm)
  · exact fun hm => h (List.take_subset _ _ hm)

theorem not_mem_pySliceFrom {s : Str} {c : Char} (h : c ∉ s) (k : Int) :
    c ∉ pySliceFrom s k := by
  unfold pySliceFrom
  split_ifs with hk
  · exact fun hm => h (List.drop_subset _ _ hm)
  · exact fun hm => h (List.drop_subset _ _ hm)

/-- The text loop preserves the balance bookkeeping: it emits balanced ghost
chunks, keeps the current-chunk count equation, and only appends `<`-free
pieces; the stack is untouched. -/
theorem textLoopG_balance (mc : Int) (stack : List (Str × Str)) :
    ∀ (fuel : Nat) (gchunks : List GChunk) (s0 : List (Str × Str))
      (pieces : List Str) (text : Str)
      (res : List GChunk × List (Str × Str) × List Str),
      textLoopG mc stack fuel gchunks s0 pieces text = some res →
      '<' ∉ text →
      (∀ gc ∈ gchunks, GChunkBal gc) →
      (∀ t : Str, stackCount t stack + closesList t pieces
        = stackCount t s0 + opensList t pieces) →
      (∀ p ∈ pieces, segOk p = true) →
      EntriesOk s0 → EntriesOk stack →
      (∀ gc ∈ res.1, GChunkBal gc) ∧
        (∀ t : Str, stackCount t stack + closesList t res.2.2
          = stackCount t res.2.1 + opensList t res.2.2) ∧
        (∀ p ∈ res.2.2, segOk p = true) ∧ EntriesOk res.2.1 := by
  intro fuel
  induction fuel with
  | zero =>
    intro gchunks s0 pieces text res h
    intro _ _ _ _ _ _
    cases h
  | succ n ih =>
    intro gchunks s0 pieces text res h htext hg hcur hseg hs0 hst
    rw [textLoopG] at h
    by_cases hemp : text.isEmpty
    · rw [if_pos hemp] at h
      have hres := Option.some.inj h
      rw [← hres]
      exact ⟨hg, hcur, hseg, hs0⟩
    · rw [if_neg hemp] at h
      by_cases hfit : (text.length : Int)
          ≤ tlAvailable mc stack (get_opening_str s0 ++ pieces.flatten)
      · rw [if_pos hfit] at h
        have hres := Option.some.inj h
        rw [← hres]
        refine ⟨hg, ?_, ?_, hs0⟩
        · intro t
          dsimp only
          rw [closesList_append, opensList_append, closesList_single,
            opensList_single, opensTok_not_mem htext, closesTok_not_mem htext]
          have := hcur t
          omega
        · intro p hp
          rcases List.mem_append.mp hp with h1 | h2
          · exact hseg p h1
          · rw [List.mem_singleton] at h2
            rw [h2]
            unfold segOk
            rw [Bool.or_eq_true]
            right
            simp [htext]
      · rw [if_neg hfit] at h
        have htext2 : '<' ∉ tlText2 mc stack
            (get_opening_str s0 ++ pieces.flatten) text := by
          unfold tlText2
          split_ifs with hpos
          · exact not_mem_pySliceFrom htext _
          · exact htext
        refine ih _ _ _ _ _ h htext2 ?_ (fun t => rfl)
          (by intro p hp; cases hp) hst hst
        intro gc hgc
        rcases List.mem_append.mp hgc with hold | hnew
        · exact hg gc hold
        · rw [List.mem_singleton] at hnew
          rw [hnew]
          refine ⟨?_, hs0, hst, ?_⟩
          · intro t
            dsimp only
            by_cases hpos : 0 < tlSplitIdx mc stack
                (get_opening_str s0 ++ pieces.flatten) text
            · rw [if_pos hpos]
              have hnm := not_mem_pySliceTo htext
                (tlSplitIdx mc stack (get_opening_str s0 ++ pieces.flatten)
                  text)
              rw [closesList_append, opensList_append, closesList_single,
                opensList_single, opensTok_not_mem hnm, closesTok_not_mem hnm]
              have := hcur t
              omega
            · rw [if_neg hpos, List.append_nil]
              have := hcur t
              omega
          · intro p hp
            by_cases hpos : 0 < tlSplitIdx mc stack
                (get_opening_str s0 ++ pieces.flatten) text
            · rw [if_pos hpos] at hp
              rcases List.mem_append.mp hp with h1 | h2
              · exact hseg p h1
              · rw [List.mem_singleton] at h2
                rw [h2]
                have hnm := not_mem_pySliceTo htext
                  (tlSplitIdx mc stack (get_opening_str s0 ++ pieces.flatten)
                    text)
                unfold segOk
                rw [Bool.or_eq_true]
                right
                simp [hnm]
            · rw [if_neg hpos, List.append_nil] at hp
              exact hseg p hp

/-- Main-loop invariant: when every prefix of the token stream is
open-closed balanced and every token is clean, each emitted ghost chunk is
balanced, the running count equation links stack and current pieces, and
both the stack entries and the pieces stay well formed. -/
theorem procTokensG_balance (mc : Int) (fuel : Nat) (full : List Str)
    (HB : BalancedPrefixes full)
    (Hcl : ∀ tok ∈ full, cleanTok tok = true) :
    ∀ (tokens pre : List Str) (gchunks : List GChunk)
      (s0 stack : List (Str × Str)) (pieces : List Str) (g2 : GSt),
      full = pre ++ tokens →
      procTokensG mc fuel tokens ⟨gchunks, s0, pieces, stack⟩ = .ok g2 →
      (∀ gc ∈ gchunks, GChunkBal gc) →
      (∀ t : Str, stackCount t stack + closesList t pieces
        = stackCount t s0 + opensList t pieces) →
      (∀ t ∈ ALLOWED_TAGS, stackCount t stack + closesList t pre
        = opensList t pre) →
      (∀ p ∈ pieces, segOk p = true) →
      EntriesOk s0 → EntriesOk stack →
      (∀ gc ∈ g2.gchunks, GChunkBal gc) ∧
        (∀ t : Str, stackCount t g2.stack + closesList t g2.pieces
          = stackCount t g2.s0 + opensList t g2.pieces) ∧
        (∀ p ∈ g2.pieces, segOk p = true) ∧ EntriesOk g2.s0
        ∧ EntriesOk g2.stack := by
  intro tokens
  induction tokens with
  | nil =>
    intro pre gchunks s0 stack pieces g2 hfull h hg hcur hglob hseg hs0 hst
    have hres := Res.ok.inj h
    rw [← hres]
    exact ⟨hg, hcur, hseg, hs0, hst⟩
  | cons token ts ih =>
    intro pre gchunks s0 stack pieces g2 hfull h hg hcur hglob hseg hs0 hst
    have htokmem : token ∈ full := by
      rw [hfull]
      exact List.mem_append_right _ (List.mem_cons_self _ _)
    have hcl := Hcl token htokmem
    have hfull2 : full = (pre ++ [token]) ++ ts := by rw [hfull]; simp
    by_cases hemp : token.isEmpty
    · rw [procTokensG, if_pos hemp] at h
      have htok0 : token = [] := by simpa using hemp
      refine ih (pre ++ [token]) gchunks s0 stack pieces g2 hfull2 h hg hcur
        ?_ hseg hs0 hst
      intro t htal
      rw [closesList_append, opensList_append, closesList_single,
        opensList_single, htok0, opensTok_head (by simp),
        closesTok_head (by simp)]
      have := hglob t htal
      omega
    · rw [procTokensG, if_neg hemp] at h
      by_cases hlt : token.head? = some '<'
      · have hwf : isWfTag token = true := by
          unfold cleanTok at hcl
          rwa [if_pos hlt] at hcl
        rw [procStepG_tag mc fuel token gchunks s0 stack pieces hlt] at h
        rcases hex : extract_tag_info token with _ | ⟨tagName, isC, isV⟩
        · rw [hex] at h; cases h
        · rw [hex] at h
          have hF2 : ∀ t : Str,
              stackCount t (if tagName ∈ ALLOWED_TAGS then
                  if isC then popTag stack tagName
                  else if !isV then stack ++ [(tagName, token)] else stack
                else stack) + closesTok t token
              = stackCount t stack + opensTok t token := by
            by_cases hal : tagName ∈ ALLOWED_TAGS
            · by_cases hC : isC = true
              · rw [hC] at hex
                have htake : full.take (pre.length + 1) = pre ++ [token] := by
                  rw [hfull]
                  exact take_append_cons pre token ts
                have hlen2 : pre.length + 1 ≤ full.length := by
                  rw [hfull, List.length_append, List.length_cons]
                  omega
                have hn := HB (pre.length + 1) hlen2 tagName hal
                rw [htake, closesList_append, opensList_append,
                  closesList_single, opensList_single,
                  (counts_closing hlt hex hal tagName).1,
                  (counts_closing hlt hex hal tagName).2,
                  (if_pos rfl : (if tagName = tagName then 1 else 0) = 1)]
                  at hn
                have hgl := hglob tagName hal
                have hpos : 0 < stackCount tagName stack := by omega
                intro t
                obtain ⟨ho, hc⟩ := counts_closing hlt hex hal t
                rw [if_pos hal, if_pos hC, ho, hc]
                have hp2 := popTag_count stack tagName t hpos
                omega
              · by_cases hV : isV = true
                · have hCf : isC = false := by
                    cases isC with
                    | false => rfl
                    | true => exact absurd rfl hC
                  intro t
                  obtain ⟨ho, hc⟩ := counts_zero hlt hex (Or.inr ⟨hCf, hV⟩) t
                  rw [if_pos hal, if_neg hC, if_neg (by simp [hV]), ho, hc]
                · have hCf : isC = false := by
                    cases isC with
                    | false => rfl
                    | true => exact absurd rfl hC
                  have hVf : isV = false := by
                    cases isV with
                    | false => rfl
                    | true => exact absurd rfl hV
                  rw [hCf, hVf] at hex
                  intro t
                  obtain ⟨ho, hc⟩ := counts_opening hlt hex hal t
                  rw [if_pos hal, if_neg hC, if_pos (by rw [hVf]; rfl), ho, hc,
                    stackCount_append]
                  have h1 := stackCount_cons t (tagName, token) []
                  dsimp only at h1
                  rw [show stackCount t ([] : List (Str × Str)) = 0 from rfl]
                    at h1
                  omega
            · intro t
              obtain ⟨ho, hc⟩ := counts_zero hlt hex (Or.inl hal) t
              rw [if_neg hal, ho, hc]
          have hF1 : EntriesOk (if tagName ∈ ALLOWED_TAGS then
              if isC then popTag stack tagName
              else if !isV then stack ++ [(tagName, token)] else stack
            else stack) := by
            by_cases hal : tagName ∈ ALLOWED_TAGS
            · by_cases hC : isC = true
              · rw [if_pos hal, if_pos hC]
                exact fun e he => hst e (popTag_subset stack tagName e he)
              · by_cases hV : isV = true
                · rw [if_pos hal, if_neg hC, if_neg (by simp [hV])]
                  exact hst
                · have hCf : isC = false := by
                    cases isC with
                    | false => rfl
                    | true => exact absurd rfl hC
                  have hVf : isV = false := by
                    cases isV with
                    | false => rfl
                    | true => exact absurd rfl hV
                  rw [if_pos hal, if_neg hC, if_pos (by rw [hVf]; rfl)]
                  intro e he
                  rcases List.mem_append.mp he with h1 | h2
                  · exact hst e h1
                  · rw [List.mem_singleton] at h2
                    rw [h2]
                    rw [hCf, hVf] at hex
                    exact ⟨hex, hal, hwf⟩
            · rw [if_neg hal]
              exact hst
          simp only [decide_eq_true_eq] at h
          by_cases hov : mc < (((get_opening_str s0 ++ pieces.flatten)
                : Str).length : Int)
              + (token.length : Int) + ((get_closing_str stack).length : Int)
          · rw [if_pos hov, if_pos hov, if_pos hov] at h
            refine ih (pre ++ [token]) _ _ _ _ _ hfull2 h ?_ ?_ ?_ ?_ hst hF1
            · intro gc hgc
              rcases List.mem_append.mp hgc with hold | hnew
              · exact hg gc hold
              · rw [List.mem_singleton] at hnew
                rw [hnew]
                refine ⟨?_, hs0, hst, hseg⟩
                intro t
                dsimp only
                have := hcur t
                omega
            · intro t
              rw [List.nil_append, closesList_single, opensList_single]
              exact hF2 t
            · intro t htal
              rw [closesList_append, opensList_append, closesList_single,
                opensList_single]
              have h1 := hF2 t
              have h2 := hglob t htal
              omega
            · intro p hp
              rw [List.nil_append, List.mem_singleton] at hp
              rw [hp]
              unfold segOk
              rw [hwf]
              rfl
          · rw [if_neg hov, if_neg hov, if_neg hov] at h
            refine ih (pre ++ [token]) _ _ _ _ _ hfull2 h hg ?_ ?_ ?_ hs0 hF1
            · intro t
              rw [closesList_append, opensList_append, closesList_single,
                opensList_single]
              have h1 := hF2 t
              have h2 := hcur t
              omega
            · intro t htal
              rw [closesList_append, opensList_append, closesList_single,
                opensList_single]
              have h1 := hF2 t
              have h2 := hglob t htal
              omega
            · intro p hp
              rcases List.mem_append.mp hp with h1 | h2
              · exact hseg p h1
              · rw [List.mem_singleton] at h2
                rw [h2]
                unfold segOk
                rw [hwf]
                rfl
      · have hnm : '<' ∉ token := by
          unfold cleanTok at hcl
          rw [if_neg hlt] at hcl
          rw [Bool.not_eq_true', decide_eq_false_iff_not] at hcl
          exact hcl
        rw [procStepG_text mc fuel token gchunks s0 stack pieces hlt] at h
        rcases htl : textLoopG mc stack fuel gchunks s0 pieces token with _ | r
        · rw [htl] at h; cases h
        · rw [htl] at h
          obtain ⟨hg2, hcur2, hseg2, hs02⟩ := textLoopG_balance mc stack fuel
            gchunks s0 pieces token r htl hnm hg hcur hseg hs0 hst
          refine ih (pre ++ [token]) _ _ _ _ _ hfull2 h hg2 hcur2 ?_ hseg2
            hs02 hst
          intro t htal
          rw [closesList_append, opensList_append, closesList_single,
            opensList_single, opensTok_not_mem hnm, closesTok_not_mem hnm]
          have := hglob t htal
          omega

theorem split_coreG_balanced (nh : Str) (mc : Int) (fuel : Nat)
    (gs : List GChunk)
    (HB : BalancedPrefixes (tokenize nh))
    (Hcl : ∀ tok ∈ tokenize nh, cleanTok tok = true)
    (hbig : ¬((nh.length : Int) ≤ mc))
    (h : split_coreG nh mc fuel = .ok gs) :
    ∀ gc ∈ gs, GChunkBal gc := by
  rw [split_coreG, if_neg hbig] at h
  rcases hpt : procTokensG mc fuel (tokenize nh) ⟨[], [], [], []⟩ with g | _ | _
  · rw [hpt] at h
    obtain ⟨hg, hcur, hseg, hs0, hst⟩ := procTokensG_balance mc fuel
      (tokenize nh) HB Hcl (tokenize nh) [] [] [] [] [] g rfl hpt
      (by intro gc hgc; cases hgc)
      (by intro t; rfl)
      (by intro t _; rfl)
      (by intro p hp; cases hp)
      (by intro e he; cases he)
      (by intro e he; cases he)
    have hgs := Res.ok.inj h
    intro gc hgc
    rw [← hgs] at hgc
    have hmem := (List.mem_filter.mp hgc).1
    split_ifs at hmem with hcce
    · exact hg gc hmem
    · rcases List.mem_append.mp hmem with hold | hnew
      · exact hg gc hold
      · rw [List.mem_singleton] at hnew
        rw [hnew]
        exact ⟨fun t => by dsimp only; have := hcur t; omega, hs0, hst, hseg⟩
  · rw [hpt] at h; cases h
  · rw [hpt] at h; cases h

/-- C5 is false as stated: for an input with an unmatched closing tag, the
returned chunk "</b>" has one closing and no opening `b` tag when parsed on
its own (opening/closing tags counted by the splitter's own parser). -/
theorem C5_counterexample :
    split_html_message ("</b>".data ++ List.replicate 10 'a') 5 50
      = .ok ["</b>".data, "aaaaa".data, "aaaaa".data]
    ∧ "</b>".data ∈ ["</b>".data, "aaaaa".data, "aaaaa".data]
    ∧ opensIn "b".data "</b>".data = 0
    ∧ closesIn "b".data "</b>".data = 1 :=
  ⟨by decide, by decide, by decide, by decide⟩

/-- C5 (amended): per-chunk tag balance holds on well-formed input.  When the
normalized token stream (a) contains only clean tokens — every `<`-initial
token is a well-formed `<...>` tag and every other token is `<`-free, (b)
never shows a closing tag before its matching opener (prefix balance over the
allow-listed names), and (c) is balanced overall, then every chunk returned
by `split_html_message`, re-parsed on its own, has equal counts of opening
(non-void) and closing tags for every tag name, the tags being identified by
the splitter's own `extract_tag_info` and restricted to the allow-listed
names it tracks. -/
theorem C5_balance_amended (html : Str) (mc : Int) (fuel : Nat)
    (cs : List Str) (nh : Str)
    (hn : normalize_html html = some nh)
    (HB : BalancedPrefixes (tokenize nh))
    (Hcl : ∀ tok ∈ tokenize nh, cleanTok tok = true)
    (Hbal : ∀ t ∈ ALLOWED_TAGS,
      opensList t (tokenize nh) = closesList t (tokenize nh))
    (h : split_html_message html mc fuel = .ok cs) :
    ∀ c ∈ cs, ∀ t : Str, opensIn t c = closesIn t c := by
  rw [split_of_norm hn] at h
  by_cases hsmall : (nh.length : Int) ≤ mc
  · rw [split_core, if_pos hsmall] at h
    have hcs := Res.ok.inj h
    intro c hc t
    rw [← hcs, List.mem_singleton] at hc
    subst hc
    by_cases htal : t ∈ ALLOWED_TAGS
    · exact Hbal t htal
    · show opensList t (tokenize c) = closesList t (tokenize c)
      rw [(counts_list_not_allowed htal _).1, (counts_list_not_allowed htal _).2]
  · rw [split_coreG_erase] at h
    rcases hg : split_coreG nh mc fuel with gs | _ | _
    · rw [hg] at h
      simp only [Res.mapR] at h
      have hcs := (Res.ok.inj h).symm
      have hbalg := split_coreG_balanced nh mc fuel gs HB Hcl hsmall hg
      intro c hc t
      rw [hcs] at hc
      rcases List.mem_map.mp hc with ⟨gc, hgcm, rfl⟩
      exact gchunk_balanced (hbalg gc hgcm) t
    · rw [hg] at h; cases h
    · rw [hg] at h; cases h

theorem C5_balance_amended_witness :
    opensIn "b".data "<b>cccc</b>".data
      = closesIn "b".data "<b>cccc</b>".data :=
  C5_balance_amended "<b>aaaa bbbb cccc</b>".data 12 30
    ["<b>aaaa </b>".data, "<b>bbbb </b>".data, "<b>cccc</b>".data,
      "<b></b>".data]
    "<b>aaaa bbbb cccc</b>".data
    (by decide) (by unfold BalancedPrefixes; decide) (by decide) (by decide)
    (by decide) "<b>cccc</b>".data (by decide) "b".data
